import Mathlib

/-!
Verification of the Loadflow repository (Newton-Raphson power-flow solver).

Shallow embedding of `powerflow/elements/{bus,branch,shunt}.py`,
`powerflow/network/network.py`, `powerflow/math/ybus.py` and
`powerflow/solver/newton_raphson.py`.  Python floats are modelled as real
numbers, numpy complex values as `ℂ`, numpy vectors as `List ℝ`, and Python
exceptions as an explicit `Err` type threaded through `Except`.
-/

namespace Loadflow

/-- Bus type constants (`powerflow/elements/bus.py`, class `BusType`). -/
inductive BusType
  | SLACK
  | PV
  | PQ
deriving DecidableEq

/-- A bus record (`powerflow/elements/bus.py`).  The Python constructor also
asserts that `type` is one of the three constants, which the inductive type
already guarantees. -/
structure Bus where
  idx : ℕ
  type : BusType
  V : ℝ := 1
  theta_deg : ℝ := 0
  P : ℝ := 0
  Q : ℝ := 0
  Qmin : Option ℝ := none
  Qmax : Option ℝ := none

/-- A branch record (`powerflow/elements/branch.py`). -/
structure Branch where
  i : ℕ
  j : ℕ
  r : ℝ
  x : ℝ
  b : ℝ := 0
  tap : ℝ := 1
  shift_deg : ℝ := 0

/-- The assertion block of `Branch.__init__` (lines 80-84): the Python
`i >= 0 and j >= 0` conjuncts hold by typing since bus indices are naturals
here. -/
def Branch.valid (br : Branch) : Prop :=
  br.i ≠ br.j ∧ 0 ≤ br.r ∧ 0 ≤ br.x ∧ 0 ≤ br.b ∧ 0 ≤ br.tap ∧
    0 ≤ br.shift_deg ∧ br.shift_deg ≤ 360

/-- A shunt record (`powerflow/elements/shunt.py`). -/
structure Shunt where
  k : ℕ
  g : ℝ := 0
  b : ℝ := 0

/-- The network aggregate (`powerflow/network/network.py`). -/
structure Network where
  buses : List Bus
  branches : List Branch
  shunts : List Shunt := []
  base_mva : ℝ := 100

/-- `Network.nbus`. -/
def Network.nbus (net : Network) : ℕ := net.buses.length

/-- `Network.slack_index`: `next(b.idx for b in self.buses if b.type == BusType.SLACK)`.
`next` on an exhausted generator raises `StopIteration`, modelled as `none`;
otherwise the `idx` of the *first* slack-typed bus is returned. -/
def Network.slack_index (net : Network) : Option ℕ :=
  (net.buses.find? (fun b => decide (b.type = BusType.SLACK))).map Bus.idx

/-- `Network.pv_indices`: `[b.idx for b in self.buses if b.type == BusType.PV]`. -/
def Network.pv_indices (net : Network) : List ℕ :=
  (net.buses.filter (fun b => decide (b.type = BusType.PV))).map Bus.idx

/-- `Network.pq_indices`. -/
def Network.pq_indices (net : Network) : List ℕ :=
  (net.buses.filter (fun b => decide (b.type = BusType.PQ))).map Bus.idx

/-- `np.deg2rad`. -/
noncomputable def deg2rad (d : ℝ) : ℝ := d * Real.pi / 180

/-- The four `Y[...] += ...` statements of `build_ybus` for one branch
(`powerflow/math/ybus.py` lines 36-45), collected as the additive
contribution of that branch to entry `(p, q)` of the matrix:
`z = r + jx`, `y = 1/z`, `ysh = j·b/2`, `t = tap·exp(j·deg2rad(shift_deg))`,
then `Y[i,i] += (y+ysh)/|t|²`, `Y[j,j] += y+ysh`, `Y[i,j] += -y/conj(t)`,
`Y[j,i] += -y/t`. -/
noncomputable def branchContrib (br : Branch) (p q : ℕ) : ℂ :=
  let z : ℂ := (br.r : ℂ) + (br.x : ℂ) * Complex.I
  let y : ℂ := 1 / z
  let ysh : ℂ := Complex.I * (br.b : ℂ) / 2
  let t : ℂ := (br.tap : ℂ) * Complex.exp (Complex.I * ((deg2rad br.shift_deg : ℝ) : ℂ))
  (if p = br.i ∧ q = br.i then (y + ysh) / (((Complex.abs t ^ 2 : ℝ)) : ℂ) else 0)
    + (if p = br.j ∧ q = br.j then y + ysh else 0)
    + (if p = br.i ∧ q = br.j then -y / (starRingEnd ℂ t) else 0)
    + (if p = br.j ∧ q = br.i then -y / t else 0)

/-- `Y[sh.k, sh.k] += complex(sh.g, sh.b)` for one shunt, as the contribution
to entry `(p, q)`. -/
noncomputable def shuntContrib (sh : Shunt) (p q : ℕ) : ℂ :=
  if p = sh.k ∧ q = sh.k then (sh.g : ℂ) + (sh.b : ℂ) * Complex.I else 0

/-- Entry `(p, q)` of the accumulated admittance matrix: `build_ybus` starts
from the zero matrix and only ever adds the per-branch and per-shunt
contributions above, so each entry is the sum of those contributions. -/
noncomputable def ybusEntry (net : Network) (p q : ℕ) : ℂ :=
  (net.branches.map (fun br => branchContrib br p q)).sum
    + (net.shunts.map (fun sh => shuntContrib sh p q)).sum

/-- The Python exceptions that can escape `build_ybus` or `LoadFlow.solve`,
plus one marker that is not an exception: `nanValues` flags a `tap = 0`
branch, where numpy divides by zero *without raising* and fills the matrix
with IEEE `nan` — a value that has no counterpart in the real-valued model,
so such networks are excluded from the model's success domain (no claim
concerns them). -/
inductive Err
  | stopIteration
  | zeroDivision
  | indexError
  | valueError
  | singular
  | nameError
  | assertionError
  | nanValues
deriving DecidableEq

/-- The failure scan of the branch loop of `build_ybus`, in statement
order per branch: `y = 1/z` raises `ZeroDivisionError` when
`z = complex(r, x) = 0` (i.e. `r = 0` and `x = 0`); then
`Y[i, i] += ...` / `Y[j, j] += ...` raise `IndexError` when an endpoint is
at or beyond `nbus` (the `Branch` constructor only asserts non-negativity);
`tap = 0` does not raise but makes `(y+ysh)/|t|²` and `-y/conj(t)` produce
`nan` entries, marked `nanValues` (see `Err`).  Branches are scanned in
list order, matching the order in which Python would raise. -/
noncomputable def branchCheck (n : ℕ) : List Branch → Option Err
  | [] => none
  | br :: rest =>
    if br.r = 0 ∧ br.x = 0 then some .zeroDivision
    else if n ≤ br.i ∨ n ≤ br.j then some .indexError
    else if br.tap = 0 then some .nanValues
    else branchCheck n rest

/-- The failure scan of the shunt loop of `build_ybus`:
`Y[sh.k, sh.k] += complex(sh.g, sh.b)` raises `IndexError` when `sh.k` is
at or beyond `nbus`. -/
def shuntCheck (n : ℕ) : List Shunt → Option Err
  | [] => none
  | sh :: rest => if n ≤ sh.k then some .indexError else shuntCheck n rest

/-- `build_ybus` (`powerflow/math/ybus.py`): scan the branch loop and then
the shunt loop for a raised exception (or a `nan`-producing `tap = 0`
branch); only when none occurs is the accumulated matrix returned. -/
noncomputable def build_ybus (net : Network) : Except Err (ℕ → ℕ → ℂ) :=
  match branchCheck net.nbus net.branches with
  | some e => .error e
  | none =>
    match shuntCheck net.nbus net.shunts with
    | some e => .error e
    | none => .ok (ybusEntry net)

/-! ### Newton-Raphson solver (`powerflow/solver/newton_raphson.py`) -/

/-- The `LoadFlowResult` typed dictionary. -/
structure LoadFlowResult where
  Vm : List ℝ
  Va : List ℝ
  P : List ℝ
  Q : List ℝ
  iterations : ℕ
  converged : Bool

/-- Solver settings stored by `LoadFlow.__init__` (which performs no
validation: it only assigns the three attributes). -/
structure LoadFlow where
  tol : ℝ
  max_iter : ℕ
  verbose : Bool

/-- Read `v[k]` for each `k` of a numpy fancy-index list; any out-of-range
index raises `IndexError`, modelled by `none`. -/
def selectList (v : List ℝ) : List ℕ → Option (List ℝ)
  | [] => some []
  | k :: ks =>
    match v.get? k, selectList v ks with
    | some xv, some xs => some (xv :: xs)
    | _, _ => none

/-- `v[ks] += xs` for pairwise-distinct indices `ks` (numpy fancy-indexed
in-place addition), realised as sequential read-add-write. -/
def addAt : List ℝ → List ℕ → List ℝ → List ℝ
  | v, [], _ => v
  | v, _ :: _, [] => v
  | v, k :: ks, xv :: xs => addAt (v.set k (v.getD k 0 + xv)) ks xs

/-- `np.max(np.abs(m))`: the maximum of the absolute values, raising
`ValueError` on an empty vector (`none`). -/
def maxAbs : List ℝ → Option ℝ
  | [] => none
  | xv :: xs =>
    match maxAbs xs with
    | none => some |xv|
    | some m => some (max |xv| m)

/-- `sorted(set(a).union(b))`. -/
def sortedUnion (a b : List ℕ) : List ℕ :=
  List.insertionSort (· ≤ ·) (a ++ b).dedup

/-- Per-iteration solver context: the quantities `solve` fixes before the
loop (lines 66-79): tolerance and budget from the `LoadFlow` object, `Y`
from `build_ybus`, `n = network.nbus`, `slack = network.slack_index()`,
`pq = network.pq_indices()` and `P_spec`. -/
structure SolveCtx where
  tol : ℝ
  max_iter : ℕ
  Y : ℕ → ℕ → ℂ
  n : ℕ
  slack : ℕ
  pq : List ℕ
  P_spec : List ℝ

/-- `G = Y.real`. -/
noncomputable def SolveCtx.G (ctx : SolveCtx) (k m : ℕ) : ℝ := (ctx.Y k m).re

/-- `B = Y.imag`. -/
noncomputable def SolveCtx.B (ctx : SolveCtx) (k m : ℕ) : ℝ := (ctx.Y k m).im

/-- The state mutated by the iteration loop: the working vectors `Vm`, `Va`,
`Q_spec`, the sets `PV_active`/`PV_conv`, plus the network object the loop
keeps reading (`network.buses[k]`).  `lastP`/`lastQ` record the most recent
`P`, `Q` arrays bound inside the loop body (unbound before the first
iteration, hence `Option`: referencing them then is Python's `NameError`). -/
structure LoopState where
  net : Network
  Vm : List ℝ
  Va : List ℝ
  Q_spec : List ℝ
  PV_active : List ℕ
  PV_conv : List ℕ
  lastP : Option (List ℝ)
  lastQ : Option (List ℝ)

/-- Lines 85-89 of `solve`: `V = Vm*exp(1j*Va)`, `I = Y@V`,
`S = V*conj(I)`, `P = S.real`, `Q = S.imag`. -/
noncomputable def computePQ (ctx : SolveCtx) (Vm Va : List ℝ) : List ℝ × List ℝ :=
  let V : ℕ → ℂ := fun k => ((Vm.getD k 0 : ℝ) : ℂ) * Complex.exp (Complex.I * ((Va.getD k 0 : ℝ) : ℂ))
  let Ivec : ℕ → ℂ := fun k => ((List.range ctx.n).map (fun m => ctx.Y k m * V m)).sum
  let S : ℕ → ℂ := fun k => V k * (starRingEnd ℂ) (Ivec k)
  ((List.range ctx.n).map (fun k => (S k).re),
   (List.range ctx.n).map (fun k => (S k).im))

/-- Outcome of the `if b.Qmin is not None and Q[k] < b.Qmin ... elif
b.Qmax is not None and Q[k] > b.Qmax` cascade for one active PV index. -/
inductive LimitDecision
  | convert (qlim : ℝ)
  | keep

/-- The cascade itself (lines 95-109): a defined lower limit with
`Q[k] < Qmin` wins and pins `Qmin`; otherwise a defined upper limit with
`Q[k] > Qmax` pins `Qmax`; otherwise the bus stays PV-active. -/
noncomputable def limitCheck (b : Bus) (qk : ℝ) : LimitDecision :=
  match b.Qmin with
  | some qmin =>
    if qk < qmin then .convert qmin
    else
      match b.Qmax with
      | some qmax => if qmax < qk then .convert qmax else .keep
      | none => .keep
  | none =>
    match b.Qmax with
    | some qmax => if qmax < qk then .convert qmax else .keep
    | none => .keep

/-- The `for k in list(PV_active)` limit-enforcement pass (lines 92-109).
It walks the active list, looks up `network.buses[k]` (raising `IndexError`
when `k` is out of range), and on a violation removes `k` from the active
set, appends it to the converted set, pins `Q_spec[k]`, and asserts the bus
is PV-typed (`AssertionError` otherwise).  Returns the remaining active
list, the converted list and the updated `Q_spec`. -/
noncomputable def limitPass (buses : List Bus) (Q : List ℝ) :
    List ℕ → List ℕ → List ℝ → Except Err (List ℕ × List ℕ × List ℝ)
  | [], conv, qspec => .ok ([], conv, qspec)
  | k :: ks, conv, qspec =>
    match buses.get? k with
    | none => .error .indexError
    | some b =>
      match limitCheck b (Q.getD k 0) with
      | .convert qlim =>
        if b.type = BusType.PV then
          limitPass buses Q ks (conv ++ [k]) (qspec.set k qlim)
        else .error .assertionError
      | .keep =>
        match limitPass buses Q ks conv qspec with
        | .ok (act, cv, qs) => .ok (k :: act, cv, qs)
        | .error e => .error e

/-- Lines 114-116: `dP = P_spec[p_rows] - P[p_rows]`,
`dQ = Q_spec[q_rows] - Q[q_rows]`, `mismatch = np.r_[dP, dQ]`. -/
def mismatchVec (pspec pcomp qspec qcomp : List ℝ) (p_rows q_rows : List ℕ) :
    Except Err (List ℝ) :=
  match selectList pspec p_rows, selectList pcomp p_rows,
      selectList qspec q_rows, selectList qcomp q_rows with
  | some a, some b, some c, some d =>
    .ok (List.zipWith (· - ·) a b ++ List.zipWith (· - ·) c d)
  | _, _, _, _ => .error .indexError

/-- The Jacobian assembly (lines 133-179): `J = np.block [[H, N], [M, L]]`
with rows of `H`/`N` indexed by `p_rows`, rows of `M`/`L` by `q_rows`,
columns `theta_cols = p_rows` and `V_cols = q_rows`, and the standard
polar-form entries, including the `max(Vk, 1e-12)` floor.  The `M`-block
diagonal write `M[ri, theta_cols.index(k)]` (line 167) is unguarded, so a
`q_rows` member outside `theta_cols` (possible only with duplicate bus
`idx` values putting the slack index into `q_rows`) raises `ValueError`
from `list.index`; every other `.index`/`[...]` site in the assembly is
over its own row/column list and cannot fail. -/
noncomputable def jacobian (G B : ℕ → ℕ → ℝ) (Vm Va P Q : List ℝ)
    (p_rows q_rows : List ℕ) : Except Err (List (List ℝ)) :=
  if ∃ k ∈ q_rows, k ∉ p_rows then .error .valueError
  else .ok (
  let c := fun k m => Real.cos (Va.getD k 0 - Va.getD m 0)
  let s := fun k m => Real.sin (Va.getD k 0 - Va.getD m 0)
  let vm := fun k => Vm.getD k 0
  let pv := fun k => P.getD k 0
  let qv := fun k => Q.getD k 0
  let floor12 : ℝ := 1 / 10 ^ 12
  let hrow := fun k => p_rows.map (fun m =>
    if m = k then -(qv k) - (vm k) ^ 2 * B k k
    else vm k * vm m * (G k m * s k m - B k m * c k m))
  let nrow := fun k => q_rows.map (fun m =>
    if m = k then pv k / max (vm k) floor12 + vm k * G k k
    else vm k * (G k m * c k m + B k m * s k m))
  let mrow := fun k => p_rows.map (fun m =>
    if m = k then pv k - (vm k) ^ 2 * G k k
    else -(vm k) * vm m * (G k m * c k m + B k m * s k m))
  let lrow := fun k => q_rows.map (fun m =>
    if m = k then qv k / max (vm k) floor12 - vm k * B k k
    else vm k * (G k m * s k m - B k m * c k m))
  p_rows.map (fun k => hrow k ++ nrow k) ++ q_rows.map (fun k => mrow k ++ lrow k))

/-- `np.linalg.solve(J, mismatch)`: the exact solution of the square dense
system, failing (`LinAlgError`, here `none`) precisely on a singular matrix.
Realised through Cramer's rule, which agrees with the unique solution
whenever the determinant is nonzero. -/
noncomputable def linsolve (A : List (List ℝ)) (rhs : List ℝ) : Option (List ℝ) :=
  let M : Matrix (Fin A.length) (Fin A.length) ℝ := Matrix.of fun i j => (A.get i).getD j 0
  let v : Fin A.length → ℝ := fun i => rhs.getD i 0
  open Classical in
  if M.det = 0 then none
  else some ((List.finRange A.length).map (fun i => Matrix.cramer M v i / M.det))

/-- Lines 186-187: `for k in PV_active: Vm[k] = network.buses[k].V`. -/
noncomputable def reimpose (buses : List Bus) : List ℕ → List ℝ → Except Err (List ℝ)
  | [], vm => .ok vm
  | k :: ks, vm =>
    match buses.get? k with
    | none => .error .indexError
    | some b => reimpose buses ks (vm.set k b.V)

/-- One pass of the `for it in range(self.max_iter)` body: compute powers,
enforce PV limits, build and test the mismatch, and either return the
converged result (`Sum.inl`, with `iterations = it` and copies of the
current state) or build the Jacobian, take the Newton step and produce the
next loop state (`Sum.inr`). -/
noncomputable def iterStep (ctx : SolveCtx) (it : ℕ) (s : LoopState) :
    Except Err (LoadFlowResult ⊕ LoopState) :=
  let P := (computePQ ctx s.Vm s.Va).1
  let Q := (computePQ ctx s.Vm s.Va).2
  match limitPass s.net.buses Q s.PV_active s.PV_conv s.Q_spec with
  | .error e => .error e
  | .ok (act, conv, qspec) =>
    let p_rows := (List.range ctx.n).filter (fun k => k ≠ ctx.slack)
    let q_rows := sortedUnion ctx.pq conv
    match mismatchVec ctx.P_spec P qspec Q p_rows q_rows with
    | .error e => .error e
    | .ok m =>
      match maxAbs m with
      | none => .error .valueError
      | some mm =>
        if mm < ctx.tol then
          .ok (.inl { Vm := s.Vm, Va := s.Va, P := P, Q := Q,
                      iterations := it, converged := true })
        else
          match jacobian ctx.G ctx.B s.Vm s.Va P Q p_rows q_rows with
          | .error e => .error e
          | .ok J =>
            match linsolve J m with
            | none => .error .singular
            | some dx =>
              let mP := p_rows.length
              let Va' := addAt s.Va p_rows (dx.take mP)
              let Vm' := addAt s.Vm q_rows (dx.drop mP)
              match reimpose s.net.buses act Vm' with
              | .error e => .error e
              | .ok Vm'' =>
                .ok (.inr { s with
                            Vm := Vm'', Va := Va', Q_spec := qspec,
                            PV_active := act, PV_conv := conv,
                            lastP := some P, lastQ := some Q })

/-- The iteration loop, with `fuel` the remaining trip count and `it` the
0-based index of the next iteration.  On fuel exhaustion the Python function
returns `LoadFlowResult(..., iterations=self.max_iter, converged=False)`
using the `P`, `Q` bound by the last executed loop body — a `NameError`
when the loop body never ran. -/
noncomputable def loopGo (ctx : SolveCtx) : ℕ → ℕ → LoopState → Except Err LoadFlowResult
  | 0, _, s =>
    match s.lastP, s.lastQ with
    | some P, some Q =>
      .ok { Vm := s.Vm, Va := s.Va, P := P, Q := Q,
            iterations := ctx.max_iter, converged := false }
    | _, _ => .error .nameError
  | fuel + 1, it, s =>
    match iterStep ctx it s with
    | .error e => .error e
    | .ok (.inl res) => .ok res
    | .ok (.inr s') => loopGo ctx fuel (it + 1) s'

/-- Lines 74-82 of `solve`: the initial working vectors and sets.
`Q_spec` holds `b.Q` for PQ buses and `0.0` otherwise; `PV_active` is
`set(pv)` (hence deduplicated) and `PV_conv` starts empty. -/
noncomputable def initState (net : Network) : LoopState :=
  { net := net
    Vm := net.buses.map Bus.V
    Va := net.buses.map (fun b => deg2rad b.theta_deg)
    Q_spec := net.buses.map (fun b => if b.type = BusType.PQ then b.Q else 0)
    PV_active := net.pv_indices.dedup
    PV_conv := []
    lastP := none
    lastQ := none }

/-- Packaging of the pre-loop constants of `solve`. -/
noncomputable def mkCtx (cfg : LoadFlow) (net : Network) (Y : ℕ → ℕ → ℂ) (sl : ℕ) : SolveCtx :=
  { tol := cfg.tol, max_iter := cfg.max_iter, Y := Y, n := net.nbus,
    slack := sl, pq := net.pq_indices, P_spec := net.buses.map Bus.P }

/-- `LoadFlow.solve` (lines 42-189): build `Y`, look up the slack index,
then run the bounded Newton loop. -/
noncomputable def LoadFlow.solve (cfg : LoadFlow) (net : Network) :
    Except Err LoadFlowResult :=
  match build_ybus net with
  | .error e => .error e
  | .ok Y =>
    match net.slack_index with
    | none => .error .stopIteration
    | some sl => loopGo (mkCtx cfg net Y sl) cfg.max_iter 0 (initState net)

/-- The loop state after `it` completed iterations (an `.inl` marks an early
converged return, an `.error` a raised exception before that point). -/
noncomputable def stateAt (ctx : SolveCtx) (s0 : LoopState) : ℕ → Except Err (LoadFlowResult ⊕ LoopState)
  | 0 => .ok (.inr s0)
  | it + 1 =>
    match stateAt ctx s0 it with
    | .ok (.inr s) => iterStep ctx it s
    | r => r

/-- Variant of the loop that also returns the final loop state, used to
express that the `Network` object inside the state is never replaced. -/
noncomputable def loopGoS (ctx : SolveCtx) : ℕ → ℕ → LoopState → LoopState × Except Err LoadFlowResult
  | 0, _, s =>
    match s.lastP, s.lastQ with
    | some P, some Q =>
      (s, .ok { Vm := s.Vm, Va := s.Va, P := P, Q := Q,
                iterations := ctx.max_iter, converged := false })
    | _, _ => (s, .error .nameError)
  | fuel + 1, it, s =>
    match iterStep ctx it s with
    | .error e => (s, .error e)
    | .ok (.inl res) => (s, .ok res)
    | .ok (.inr s') => loopGoS ctx fuel (it + 1) s'

/-- `solve` together with the network object as it stands after the call. -/
noncomputable def LoadFlow.solveS (cfg : LoadFlow) (net : Network) :
    Network × Except Err LoadFlowResult :=
  match build_ybus net with
  | .error e => (net, .error e)
  | .ok Y =>
    match net.slack_index with
    | none => (net, .error .stopIteration)
    | some sl =>
      let p := loopGoS (mkCtx cfg net Y sl) cfg.max_iter 0 (initState net)
      (p.1.net, p.2)

/-! ### Concrete networks used as test inputs -/

/-- A slack bus at index 0 with flat-start state. -/
def busSlack : Bus := ⟨0, BusType.SLACK, 1, 0, 0, 0, none, none⟩

/-- A PQ bus at index 1 with zero injections. -/
def busPQ0 : Bus := ⟨1, BusType.PQ, 1, 0, 0, 0, none, none⟩

/-- A PQ bus at index 1 demanding `P = 1`. -/
def busPQ1 : Bus := ⟨1, BusType.PQ, 1, 0, 1, 0, none, none⟩

/-- A PV bus at index 1 whose `Qmax = -1` is violated by a computed `Q = 0`. -/
def busPVq : Bus := ⟨1, BusType.PV, 1, 0, 0, 0, none, some (-1)⟩

/-- A purely reactive branch between buses 0 and 1 (`r = 0`, `x = 1`). -/
def brA : Branch := ⟨0, 1, 0, 1, 0, 1, 0⟩

/-- A zero-impedance branch (`r = 0`, `x = 0`), accepted by the `Branch`
constructor assertions. -/
def brZ : Branch := ⟨0, 1, 0, 0, 0, 1, 0⟩

/-- Two disconnected buses: the trivially converged network. -/
def netA : Network := ⟨[busSlack, busPQ0], [], [], 100⟩

/-- Slack feeding a `P = 1` load through `brA`: well-posed first Newton step
but no convergence within a one-iteration budget. -/
def netB : Network := ⟨[busSlack, busPQ1], [brA], [], 100⟩

/-- Slack plus a PV bus violating its `Qmax` at the first iteration. -/
def netC : Network := ⟨[busSlack, busPVq], [brA], [], 100⟩

/-- A network with two slack-typed buses. -/
def netTwoSlack : Network := ⟨[busSlack, ⟨1, BusType.SLACK, 1, 0, 0, 0, none, none⟩], [], [], 100⟩

/-- A network containing the zero-impedance branch `brZ`. -/
def netZ : Network := ⟨[busSlack, busPQ0], [brZ], [], 100⟩

/-- Buses whose `idx` fields permute their list positions. -/
def netPerm : Network := ⟨[⟨1, BusType.PV, 1, 0, 0, 0, none, none⟩, busSlack], [], [], 100⟩

/-- A PQ bus whose `idx` field (5) is at or beyond the bus count (2). -/
def netOOR : Network := ⟨[busSlack, ⟨5, BusType.PQ, 1, 0, 0, 0, none, none⟩], [], [], 100⟩

/-! ### C4 — slack lookup -/

/-- C4 counterexample: a network with **two** slack-typed buses does not
make the lookup fail; `slack_index` silently returns the first slack bus's
index, refuting the claim that the lookup fails whenever more than one
slack bus exists. -/
theorem slack_index_two_slacks_returns :
    (netTwoSlack.buses.filter (fun b => decide (b.type = BusType.SLACK))).length = 2 ∧
      netTwoSlack.slack_index = some 0 := by
  constructor <;> rfl

/-- C4 (amended): the slack-bus lookup fails deterministically exactly when
the network contains zero slack-typed buses; whenever at least one exists
(one or several), it returns the `idx` of the first slack-typed bus in list
order. -/
theorem slack_index_none_iff_no_slack (net : Network) :
    (net.slack_index = none ↔ ∀ b ∈ net.buses, b.type ≠ BusType.SLACK) ∧
    (∀ b, net.buses.find? (fun b0 => decide (b0.type = BusType.SLACK)) = some b →
      net.slack_index = some b.idx) := by
  constructor
  · simp [Network.slack_index, List.find?_eq_none]
  · intro b hb
    simp [Network.slack_index, hb]

/-- C4 witness: instantiation of the amended statement on `netTwoSlack`. -/
theorem slack_index_amended_witness :
    netTwoSlack.slack_index = some busSlack.idx :=
  (slack_index_none_iff_no_slack netTwoSlack).2 busSlack rfl

/-! ### C6 — unity-tap, zero-shift pi-model -/

/-- C6: a branch with `tap = 1` and `shift_deg = 0` contributes exactly the
untransformed pi-model to the admittance matrix: `y + ySh` on both diagonal
entries and `-y` on both off-diagonal entries, with `y = 1/(r + jx)` and
`ySh = j·b/2`. -/
theorem branch_unity_tap_pi_model (br : Branch) (ht : br.tap = 1)
    (hs : br.shift_deg = 0) (hij : br.i ≠ br.j) :
    branchContrib br br.i br.i
        = 1 / ((br.r : ℂ) + (br.x : ℂ) * Complex.I) + Complex.I * (br.b : ℂ) / 2 ∧
    branchContrib br br.j br.j
        = 1 / ((br.r : ℂ) + (br.x : ℂ) * Complex.I) + Complex.I * (br.b : ℂ) / 2 ∧
    branchContrib br br.i br.j = -(1 / ((br.r : ℂ) + (br.x : ℂ) * Complex.I)) ∧
    branchContrib br br.j br.i = -(1 / ((br.r : ℂ) + (br.x : ℂ) * Complex.I)) := by
  have hd : deg2rad br.shift_deg = 0 := by simp [deg2rad, hs]
  have ht1 : (br.tap : ℂ) * Complex.exp (Complex.I * ((deg2rad br.shift_deg : ℝ) : ℂ)) = 1 := by
    simp [ht, hd]
  refine ⟨?_, ?_, ?_, ?_⟩ <;>
    simp [branchContrib, ht1, hij, Ne.symm hij, neg_div]

/-- C6 witness: the off-diagonal contribution of the concrete branch
`⟨0, 1, r = 0, x = 1, b = 0, tap = 1, shift = 0⟩`. -/
theorem branch_unity_tap_witness :
    brA.tap = 1 ∧ brA.shift_deg = 0 ∧ brA.i ≠ brA.j ∧
      branchContrib brA brA.i brA.j
        = -(1 / ((brA.r : ℂ) + (brA.x : ℂ) * Complex.I)) :=
  ⟨rfl, rfl, by decide, (branch_unity_tap_pi_model brA rfl rfl (by decide)).2.2.1⟩

/-! ### C9 — zero-impedance branches -/

/-- A branch list containing a zero-impedance branch never passes the
branch scan: the scan stops at the first faulty branch with some error
(`ZeroDivisionError` at the zero-impedance branch itself, or an earlier
branch's failure). -/
theorem branchCheck_fails (n : ℕ) :
    ∀ l : List Branch, (∃ br ∈ l, br.r = 0 ∧ br.x = 0) →
      ∃ e, branchCheck n l = some e := by
  intro l
  induction l with
  | nil =>
    rintro ⟨br, hmem, -⟩
    cases hmem
  | cons b0 rest ih =>
    rintro ⟨br, hmem, hzero⟩
    simp only [branchCheck]
    by_cases h0 : b0.r = 0 ∧ b0.x = 0
    · rw [if_pos h0]
      exact ⟨Err.zeroDivision, rfl⟩
    · rw [if_neg h0]
      by_cases h1 : n ≤ b0.i ∨ n ≤ b0.j
      · rw [if_pos h1]
        exact ⟨Err.indexError, rfl⟩
      · rw [if_neg h1]
        by_cases h2 : b0.tap = 0
        · rw [if_pos h2]
          exact ⟨Err.nanValues, rfl⟩
        · rw [if_neg h2]
          apply ih
          rcases List.mem_cons.mp hmem with rfl | hmem2
          · exact absurd hzero h0
          · exact ⟨br, hmem2, hzero⟩

/-- C9: the `Branch` constructor accepts `r = 0` together with `x = 0`
(its assertions only require them non-negative), while `build_ybus` divides
`1/(r + jx)` unguarded, so any network containing a zero-impedance branch
makes the builder raise (`ZeroDivisionError` at that branch — or an earlier
branch's failure if one precedes it in the loop) instead of returning a
matrix. -/
theorem zero_impedance_accepted_ybus_fails :
    (∀ (bi bj : ℕ) (bb tp sd : ℝ), bi ≠ bj → 0 ≤ bb → 0 ≤ tp → 0 ≤ sd → sd ≤ 360 →
        Branch.valid ⟨bi, bj, 0, 0, bb, tp, sd⟩) ∧
    (∀ net : Network, ∀ br ∈ net.branches, br.r = 0 → br.x = 0 →
        ∃ e, build_ybus net = .error e) := by
  constructor
  · intro bi bj bb tp sd hne hbb htp hsd hsd'
    exact ⟨hne, le_refl 0, le_refl 0, hbb, htp, hsd, hsd'⟩
  · intro net br hmem hr hx
    obtain ⟨e, he⟩ := branchCheck_fails net.nbus net.branches ⟨br, hmem, hr, hx⟩
    refine ⟨e, ?_⟩
    simp only [build_ybus, he]

/-- C9 witness: the concrete zero-impedance branch `brZ` inside `netZ`,
where the raised error is precisely the division by zero. -/
theorem zero_impedance_witness :
    brZ ∈ netZ.branches ∧ brZ.r = 0 ∧ brZ.x = 0 ∧
      (∃ e, build_ybus netZ = .error e) ∧
      build_ybus netZ = .error .zeroDivision := by
  have h1 : branchCheck netZ.nbus netZ.branches = some Err.zeroDivision := by
    rw [show netZ.branches = [brZ] from rfl]
    simp only [branchCheck]
    rw [if_pos (⟨rfl, rfl⟩ : brZ.r = 0 ∧ brZ.x = 0)]
  refine ⟨by simp [netZ], rfl, rfl,
    zero_impedance_accepted_ybus_fails.2 netZ brZ (by simp [netZ]) rfl rfl, ?_⟩
  simp only [build_ybus, h1]

/-- The single branch `brA` (`r = 0`, `x = 1`, endpoints 0 and 1,
`tap = 1`) passes the branch scan on a two-bus network. -/
theorem branchCheck_brA (n : ℕ) (hn : n = 2) : branchCheck n [brA] = none := by
  subst hn
  simp only [branchCheck]
  rw [if_neg (by norm_num [brA] : ¬(brA.r = 0 ∧ brA.x = 0))]
  rw [if_neg (by decide : ¬(2 ≤ brA.i ∨ 2 ≤ brA.j))]
  rw [if_neg (by norm_num [brA] : ¬brA.tap = 0)]

/-- `build_ybus` succeeds on `netB`. -/
theorem build_ybus_netB : build_ybus netB = .ok (ybusEntry netB) := by
  have h1 : branchCheck netB.nbus netB.branches = none := branchCheck_brA _ rfl
  simp only [build_ybus, h1]
  rfl

/-- `build_ybus` succeeds on `netC` as well. -/
theorem build_ybus_netC : build_ybus netC = .ok (ybusEntry netC) := by
  have h1 : branchCheck netC.nbus netC.branches = none := branchCheck_brA _ rfl
  simp only [build_ybus, h1]
  rfl

/-! ### C7 — symmetry of the admittance matrix -/

/-- The per-branch contribution is symmetric for a unity-tap,
zero-phase-shift branch. -/
theorem branchContrib_symm (br : Branch) (ht : br.tap = 1) (hs : br.shift_deg = 0)
    (p q : ℕ) : branchContrib br p q = branchContrib br q p := by
  have hd : deg2rad br.shift_deg = 0 := by simp [deg2rad, hs]
  have ht1 : (br.tap : ℂ) * Complex.exp (Complex.I * ((deg2rad br.shift_deg : ℝ) : ℂ)) = 1 := by
    simp [ht, hd]
  simp only [branchContrib, ht1, map_one, one_pow, Complex.ofReal_one, div_one]
  rcases eq_or_ne br.i br.j with h5 | h5
  · by_cases h1 : p = br.i <;> by_cases h2 : p = br.j <;>
      by_cases h3 : q = br.i <;> by_cases h4 : q = br.j <;>
        simp [h1, h2, h3, h4, h5]
  · by_cases h1 : p = br.i <;> by_cases h2 : p = br.j <;>
      by_cases h3 : q = br.i <;> by_cases h4 : q = br.j <;>
        simp [h1, h2, h3, h4, h5, Ne.symm h5]

/-- The per-shunt contribution is always symmetric (it is diagonal). -/
theorem shuntContrib_symm (sh : Shunt) (p q : ℕ) :
    shuntContrib sh p q = shuntContrib sh q p := by
  by_cases h1 : p = sh.k <;> by_cases h2 : q = sh.k <;>
    simp [shuntContrib, h1, h2]

/-- When `build_ybus` succeeds, the returned matrix is exactly the
accumulated entry function `ybusEntry`. -/
theorem build_ybus_ok_inv (net : Network) (Y : ℕ → ℕ → ℂ)
    (hY : build_ybus net = .ok Y) : Y = ybusEntry net := by
  revert hY
  simp only [build_ybus]
  cases branchCheck net.nbus net.branches with
  | some e => intro h; cases h
  | none =>
    cases shuntCheck net.nbus net.shunts with
    | some e => intro h; cases h
    | none =>
      intro h
      injection h with h
      exact h.symm

/-- C7: for a network whose branches all have `tap = 1` and
`shift_deg = 0` (with arbitrary shunts), the matrix returned by
`build_ybus` is symmetric. -/
theorem ybus_symmetric_unity_tap (net : Network)
    (h : ∀ br ∈ net.branches, br.tap = 1 ∧ br.shift_deg = 0)
    (Y : ℕ → ℕ → ℂ) (hY : build_ybus net = .ok Y) :
    ∀ p q, Y p q = Y q p := by
  have hYe : Y = ybusEntry net := build_ybus_ok_inv net Y hY
  subst hYe
  intro p q
  unfold ybusEntry
  congr 1
  · exact congrArg List.sum
      (List.map_congr_left (fun br hbr => branchContrib_symm br (h br hbr).1 (h br hbr).2 p q))
  · exact congrArg List.sum
      (List.map_congr_left (fun sh _ => shuntContrib_symm sh p q))

/-- C7 witness: symmetry instantiated on the concrete network `netB`. -/
theorem ybus_symmetric_witness :
    build_ybus netB = .ok (ybusEntry netB) ∧
      ybusEntry netB 0 1 = ybusEntry netB 1 0 :=
  ⟨build_ybus_netB, ybus_symmetric_unity_tap netB
    (by
      intro br hmem
      simp only [netB, brA] at hmem
      rcases List.mem_singleton.mp hmem with rfl
      exact ⟨rfl, rfl⟩)
    (ybusEntry netB) build_ybus_netB 0 1⟩

/-! ### Loop-unrolling lemmas -/

/-- A non-final loop iteration advances `loopGo` by one step. -/
theorem loopGo_shift (ctx : SolveCtx) (fuel it : ℕ) (s s' : LoopState)
    (h : iterStep ctx it s = .ok (.inr s')) :
    loopGo ctx (fuel + 1) it s = loopGo ctx fuel (it + 1) s' := by
  simp [loopGo, h]

/-- Running the loop from the start is the same as running it from any
reached intermediate state. -/
theorem loopGo_of_stateAt (ctx : SolveCtx) (s0 : LoopState) :
    ∀ it s, stateAt ctx s0 it = .ok (.inr s) →
      ∀ fuel, loopGo ctx (it + fuel) 0 s0 = loopGo ctx fuel it s := by
  intro it
  induction it with
  | zero =>
    intro s h fuel
    simp only [stateAt, Except.ok.injEq, Sum.inr.injEq] at h
    rw [Nat.zero_add, h]
  | succ it ih =>
    intro s h fuel
    simp only [stateAt] at h
    cases hp : stateAt ctx s0 it with
    | error e =>
      rw [hp] at h
      simp at h
    | ok v =>
      cases v with
      | inl r =>
        rw [hp] at h
        simp at h
      | inr s1 =>
        rw [hp] at h
        have h1 := ih s1 hp (fuel + 1)
        have h2 := loopGo_shift ctx fuel it s1 s h
        have harith : it + 1 + fuel = it + (fuel + 1) := by omega
        rw [harith, h1, h2]

/-! ### C1 — convergence check semantics -/

/-- C1: if the loop genuinely reaches iteration `it` (state `s`), and at
that iteration — after the PV-limit pass — the mismatch vector `m` has
maximum absolute entry `mm` strictly below the tolerance, then `solve`
stops right there and returns `converged = true` with `iterations = it`,
the 0-based index of that iteration (the number of Newton updates completed
before convergence was detected); in particular `it = 0` when the initial
state already satisfies the tolerance. -/
theorem solve_stops_at_first_convergent_iteration
    (cfg : LoadFlow) (net : Network) (Y : ℕ → ℕ → ℂ) (sl : ℕ) (it : ℕ) (s : LoopState)
    (act conv : List ℕ) (qspec : List ℝ) (m : List ℝ) (mm : ℝ)
    (hY : build_ybus net = .ok Y) (hsl : net.slack_index = some sl)
    (hreach : stateAt (mkCtx cfg net Y sl) (initState net) it = .ok (.inr s))
    (hit : it < cfg.max_iter)
    (hlim : limitPass s.net.buses (computePQ (mkCtx cfg net Y sl) s.Vm s.Va).2
        s.PV_active s.PV_conv s.Q_spec = .ok (act, conv, qspec))
    (hmis : mismatchVec (mkCtx cfg net Y sl).P_spec
        (computePQ (mkCtx cfg net Y sl) s.Vm s.Va).1 qspec
        (computePQ (mkCtx cfg net Y sl) s.Vm s.Va).2
        ((List.range (mkCtx cfg net Y sl).n).filter (fun k => k ≠ (mkCtx cfg net Y sl).slack))
        (sortedUnion (mkCtx cfg net Y sl).pq conv) = .ok m)
    (hmax : maxAbs m = some mm) (htol : mm < cfg.tol) :
    LoadFlow.solve cfg net = .ok
      { Vm := s.Vm, Va := s.Va,
        P := (computePQ (mkCtx cfg net Y sl) s.Vm s.Va).1,
        Q := (computePQ (mkCtx cfg net Y sl) s.Vm s.Va).2,
        iterations := it, converged := true } := by
  have htol' : mm < (mkCtx cfg net Y sl).tol := htol
  have hstep : iterStep (mkCtx cfg net Y sl) it s = .ok (.inl
      { Vm := s.Vm, Va := s.Va,
        P := (computePQ (mkCtx cfg net Y sl) s.Vm s.Va).1,
        Q := (computePQ (mkCtx cfg net Y sl) s.Vm s.Va).2,
        iterations := it, converged := true }) := by
    simp only [iterStep, hlim, hmis, hmax]
    rw [if_pos htol']
  simp only [LoadFlow.solve, hY, hsl]
  obtain ⟨fuel, hfuel⟩ : ∃ fuel, cfg.max_iter = it + (fuel + 1) :=
    ⟨cfg.max_iter - it - 1, by omega⟩
  rw [hfuel, loopGo_of_stateAt (mkCtx cfg net Y sl) (initState net) it s hreach (fuel + 1)]
  simp [loopGo, hstep]

/-! ### C3 — budget exhaustion -/

/-- C3: if every one of the `max_iter` iterations completes (the linear
solves succeed) without the mismatch ever falling below tolerance — i.e.
the loop reaches a state `sF` after `max_iter` completed iterations — then
`solve` returns normally with `converged = false`, `iterations = max_iter`,
and the last computed voltage-magnitude, angle and power vectors. -/
theorem solve_budget_exhausted_returns
    (cfg : LoadFlow) (net : Network) (Y : ℕ → ℕ → ℂ) (sl : ℕ) (sF : LoopState)
    (P Q : List ℝ)
    (hY : build_ybus net = .ok Y) (hsl : net.slack_index = some sl)
    (hfin : stateAt (mkCtx cfg net Y sl) (initState net) cfg.max_iter = .ok (.inr sF))
    (hP : sF.lastP = some P) (hQ : sF.lastQ = some Q) :
    LoadFlow.solve cfg net = .ok
      { Vm := sF.Vm, Va := sF.Va, P := P, Q := Q,
        iterations := cfg.max_iter, converged := false } := by
  simp only [LoadFlow.solve, hY, hsl]
  have h1 := loopGo_of_stateAt (mkCtx cfg net Y sl) (initState net) cfg.max_iter sF hfin 0
  rw [Nat.add_zero] at h1
  rw [h1]
  simp [loopGo, hP, hQ, mkCtx]

/-! ### C2 — PV limit enforcement invariants -/

/-- The first arm of the cascade: the bus defines a lower reactive limit and
the computed `Q` undercuts it. -/
def violLo (b : Bus) (qk : ℝ) : Prop := ∃ q, b.Qmin = some q ∧ qk < q

/-- The second arm: the bus defines an upper reactive limit and the computed
`Q` exceeds it. -/
def violHi (b : Bus) (qk : ℝ) : Prop := ∃ q, b.Qmax = some q ∧ q < qk

/-- The cascade keeps a bus active exactly when neither defined limit is
violated. -/
theorem limitCheck_keep_iff (b : Bus) (qk : ℝ) :
    limitCheck b qk = LimitDecision.keep ↔ ¬violLo b qk ∧ ¬violHi b qk := by
  unfold limitCheck violLo violHi
  cases hmin : b.Qmin with
  | none =>
    dsimp only
    cases hmax : b.Qmax with
    | none => simp
    | some qmax =>
      dsimp only
      by_cases hq : qmax < qk
      · rw [if_pos hq]
        constructor
        · intro hcon
          cases hcon
        · rintro ⟨-, h2⟩
          exact absurd ⟨qmax, rfl, hq⟩ h2
      · rw [if_neg hq]
        constructor
        · intro _
          refine ⟨?_, ?_⟩
          · rintro ⟨q, hq0, -⟩
            cases hq0
          · rintro ⟨q, hq0, hlt⟩
            rw [Option.some.injEq] at hq0
            subst hq0
            exact hq hlt
        · intro _
          rfl
  | some qmin =>
    dsimp only
    by_cases hq : qk < qmin
    · rw [if_pos hq]
      constructor
      · intro hcon
        cases hcon
      · rintro ⟨h1, -⟩
        exact absurd ⟨qmin, rfl, hq⟩ h1
    · rw [if_neg hq]
      cases hmax : b.Qmax with
      | none =>
        dsimp only
        constructor
        · intro _
          refine ⟨?_, ?_⟩
          · rintro ⟨q, hq0, hlt⟩
            rw [Option.some.injEq] at hq0
            subst hq0
            exact hq hlt
          · rintro ⟨q, hq0, -⟩
            cases hq0
        · intro _
          rfl
      | some qmax =>
        dsimp only
        by_cases hq2 : qmax < qk
        · rw [if_pos hq2]
          constructor
          · intro hcon
            cases hcon
          · rintro ⟨-, h2⟩
            exact absurd ⟨qmax, rfl, hq2⟩ h2
        · rw [if_neg hq2]
          constructor
          · intro _
            refine ⟨?_, ?_⟩
            · rintro ⟨q, hq0, hlt⟩
              rw [Option.some.injEq] at hq0
              subst hq0
              exact hq hlt
            · rintro ⟨q, hq0, hlt⟩
              rw [Option.some.injEq] at hq0
              subst hq0
              exact hq2 hlt
          · intro _
            rfl

/-- The cascade converts a bus exactly when a defined lower limit is
undercut or a defined upper limit is exceeded. -/
theorem limitCheck_convert_exists_iff (b : Bus) (qk : ℝ) :
    (∃ q, limitCheck b qk = LimitDecision.convert q) ↔ violLo b qk ∨ violHi b qk := by
  unfold limitCheck violLo violHi
  cases hmin : b.Qmin with
  | none =>
    dsimp only
    cases hmax : b.Qmax with
    | none =>
      constructor
      · rintro ⟨q, hq⟩
        cases hq
      · rintro (⟨q, hq0, -⟩ | ⟨q, hq0, -⟩) <;> cases hq0
    | some qmax =>
      dsimp only
      by_cases hq : qmax < qk
      · rw [if_pos hq]
        exact ⟨fun _ => Or.inr ⟨qmax, rfl, hq⟩, fun _ => ⟨qmax, rfl⟩⟩
      · rw [if_neg hq]
        constructor
        · rintro ⟨q, hq0⟩
          cases hq0
        · rintro (⟨q, hq0, -⟩ | ⟨q, hq0, hlt⟩)
          · cases hq0
          · rw [Option.some.injEq] at hq0
            subst hq0
            exact absurd hlt hq
  | some qmin =>
    dsimp only
    by_cases hq : qk < qmin
    · rw [if_pos hq]
      exact ⟨fun _ => Or.inl ⟨qmin, rfl, hq⟩, fun _ => ⟨qmin, rfl⟩⟩
    · rw [if_neg hq]
      cases hmax : b.Qmax with
      | none =>
        dsimp only
        constructor
        · rintro ⟨q, hq0⟩
          cases hq0
        · rintro (⟨q, hq0, hlt⟩ | ⟨q, hq0, -⟩)
          · rw [Option.some.injEq] at hq0
            subst hq0
            exact absurd hlt hq
          · cases hq0
      | some qmax =>
        dsimp only
        by_cases hq2 : qmax < qk
        · rw [if_pos hq2]
          exact ⟨fun _ => Or.inr ⟨qmax, rfl, hq2⟩, fun _ => ⟨qmax, rfl⟩⟩
        · rw [if_neg hq2]
          constructor
          · rintro ⟨q, hq0⟩
            cases hq0
          · rintro (⟨q, hq0, hlt⟩ | ⟨q, hq0, hlt⟩) <;>
              (rw [Option.some.injEq] at hq0; subst hq0)
            · exact absurd hlt hq
            · exact absurd hlt hq2

/-- The pinned value is the violated limit: `Qmin` when the lower-limit arm
fires, else (no lower violation) `Qmax`. -/
theorem limitCheck_convert_value (b : Bus) (qk q : ℝ)
    (h : limitCheck b qk = LimitDecision.convert q) :
    (b.Qmin = some q ∧ qk < q) ∨ (¬violLo b qk ∧ b.Qmax = some q ∧ q < qk) := by
  revert h
  unfold limitCheck
  cases hmin : b.Qmin with
  | none =>
    dsimp only
    cases hmax : b.Qmax with
    | none =>
      intro h
      cases h
    | some qmax =>
      dsimp only
      by_cases hq : qmax < qk
      · rw [if_pos hq]
        intro h
        injection h with he
        subst he
        refine Or.inr ⟨?_, rfl, hq⟩
        rintro ⟨q0, hq0, -⟩
        rw [hmin] at hq0
        cases hq0
      · rw [if_neg hq]
        intro h
        cases h
  | some qmin =>
    dsimp only
    by_cases hq : qk < qmin
    · rw [if_pos hq]
      intro h
      injection h with he
      subst he
      exact Or.inl ⟨rfl, hq⟩
    · rw [if_neg hq]
      cases hmax : b.Qmax with
      | none =>
        intro h
        cases h
      | some qmax =>
        dsimp only
        by_cases hq2 : qmax < qk
        · rw [if_pos hq2]
          intro h
          injection h with he
          subst he
          refine Or.inr ⟨?_, rfl, hq2⟩
          rintro ⟨q0, hq0, hlt⟩
          rw [hmin, Option.some.injEq] at hq0
          subst hq0
          exact hq hlt
        · rw [if_neg hq2]
          intro h
          cases h

/-- Membership bookkeeping of one limit-enforcement pass: the returned
active list is a subset of the pending one, the converted list only grows,
and for every pending index membership in the outputs is decided by the
(unchanging) cascade verdict for that index. -/
theorem limitPass_facts (buses : List Bus) (Q : List ℝ) :
    ∀ (pend conv : List ℕ) (qspec : List ℝ) (act cv : List ℕ) (qs : List ℝ),
      limitPass buses Q pend conv qspec = .ok (act, cv, qs) →
      ((∀ k, k ∈ act → k ∈ pend) ∧
       (∀ k, k ∈ conv → k ∈ cv) ∧
       (∀ k, k ∈ cv → k ∈ conv ∨ k ∈ pend) ∧
       (∀ k, k ∈ pend → (k ∈ act ↔ ∃ b, buses.get? k = some b ∧
           limitCheck b (Q.getD k 0) = LimitDecision.keep)) ∧
       (∀ k, k ∈ pend → (k ∈ cv ↔ k ∈ conv ∨ ∃ b q, buses.get? k = some b ∧
           limitCheck b (Q.getD k 0) = LimitDecision.convert q)) ∧
       qs.length = qspec.length) := by
  intro pend
  induction pend with
  | nil =>
    intro conv qspec act cv qs h
    simp only [limitPass, Except.ok.injEq, Prod.mk.injEq] at h
    obtain ⟨rfl, rfl, rfl⟩ := h
    refine ⟨by simp, fun k hk => hk, fun k hk => Or.inl hk, by simp, ?_, rfl⟩
    intro k hk
    cases hk
  | cons k0 ks ih =>
    intro conv qspec act cv qs
    simp only [limitPass]
    cases hb : buses.get? k0 with
    | none =>
      intro h
      cases h
    | some b0 =>
      dsimp only
      cases hd : limitCheck b0 (Q.getD k0 0) with
      | convert qlim =>
        dsimp only
        by_cases hpv : b0.type = BusType.PV
        · rw [if_pos hpv]
          intro h
          obtain ⟨f1, f2, f3, f4, f5, f6⟩ := ih (conv ++ [k0]) (qspec.set k0 qlim) act cv qs h
          refine ⟨?_, ?_, ?_, ?_, ?_, ?_⟩
          · exact fun k hk => List.mem_cons_of_mem _ (f1 k hk)
          · intro k hk
            exact f2 k (by simp [hk])
          · intro k hk
            rcases f3 k hk with hc | hk2
            · rcases List.mem_append.mp hc with h' | h'
              · exact Or.inl h'
              · simp only [List.mem_singleton] at h'
                subst h'
                exact Or.inr (List.mem_cons_self _ _)
            · exact Or.inr (List.mem_cons_of_mem _ hk2)
          · intro k hk
            rcases List.mem_cons.mp hk with rfl | hk2
            · constructor
              · intro hact
                obtain ⟨b', hb', hk'⟩ := (f4 k (f1 k hact)).mp hact
                rw [hb] at hb'
                injection hb' with hbe
                subst hbe
                rw [hd] at hk'
                cases hk'
              · rintro ⟨b', hb', hk'⟩
                rw [hb] at hb'
                injection hb' with hbe
                subst hbe
                rw [hd] at hk'
                cases hk'
            · exact f4 k hk2
          · intro k hk
            rcases List.mem_cons.mp hk with rfl | hk2
            · constructor
              · intro _
                exact Or.inr ⟨b0, qlim, hb, hd⟩
              · intro _
                exact f2 k (by simp)
            · rw [f5 k hk2]
              constructor
              · rintro (hc | he)
                · rcases List.mem_append.mp hc with h' | h'
                  · exact Or.inl h'
                  · simp only [List.mem_singleton] at h'
                    subst h'
                    exact Or.inr ⟨b0, qlim, hb, hd⟩
                · exact Or.inr he
              · rintro (hc | he)
                · exact Or.inl (by simp [hc])
                · exact Or.inr he
          · rw [f6, List.length_set]
        · rw [if_neg hpv]
          intro h
          cases h
      | keep =>
        dsimp only
        cases hrec : limitPass buses Q ks conv qspec with
        | error e =>
          intro h
          cases h
        | ok t =>
          obtain ⟨act', cv', qs'⟩ := t
          intro h
          simp only [Except.ok.injEq, Prod.mk.injEq] at h
          obtain ⟨rfl, rfl, rfl⟩ := h
          obtain ⟨f1, f2, f3, f4, f5, f6⟩ := ih conv qspec act' cv' qs' hrec
          refine ⟨?_, f2, fun k hk => (f3 k hk).imp id (List.mem_cons_of_mem _), ?_, ?_, f6⟩
          · intro k hk
            rcases List.mem_cons.mp hk with rfl | hk2
            · exact List.mem_cons_self _ _
            · exact List.mem_cons_of_mem _ (f1 k hk2)
          · intro k hk
            rcases List.mem_cons.mp hk with rfl | hk2
            · exact ⟨fun _ => ⟨b0, hb, hd⟩, fun _ => List.mem_cons_self _ _⟩
            · constructor
              · intro hk3
                rcases List.mem_cons.mp hk3 with rfl | hk4
                · exact ⟨b0, hb, hd⟩
                · exact (f4 k hk2).mp hk4
              · intro he
                by_cases hkk : k = k0
                · subst hkk
                  exact List.mem_cons_self _ _
                · exact List.mem_cons_of_mem _ ((f4 k hk2).mpr he)
          · intro k hk
            rcases List.mem_cons.mp hk with rfl | hk2
            · constructor
              · intro hcv
                rcases f3 k hcv with hc | hks
                · exact Or.inl hc
                · rcases (f5 k hks).mp hcv with hc | ⟨b', q', hb', hd'⟩
                  · exact Or.inl hc
                  · rw [hb] at hb'
                    injection hb' with hbe
                    subst hbe
                    rw [hd] at hd'
                    cases hd'
              · rintro (hc | ⟨b', q', hb', hd'⟩)
                · exact f2 k hc
                · rw [hb] at hb'
                  injection hb' with hbe
                  subst hbe
                  rw [hd] at hd'
                  cases hd'
            · exact f5 k hk2

/-- `Q_spec` pinning: after a pass, every pending index whose cascade
verdict is `convert q` holds exactly `q` in the returned `Q_spec`; and a
pin already present survives the rest of the pass. -/
theorem limitPass_pins (buses : List Bus) (Q : List ℝ) :
    ∀ (pend conv : List ℕ) (qspec : List ℝ) (act cv : List ℕ) (qs : List ℝ),
      buses.length ≤ qspec.length →
      limitPass buses Q pend conv qspec = .ok (act, cv, qs) →
      ∀ k b q, buses.get? k = some b →
        limitCheck b (Q.getD k 0) = LimitDecision.convert q →
        (qspec.get? k = some q → qs.get? k = some q) ∧
        (k ∈ pend → qs.get? k = some q) := by
  intro pend
  induction pend with
  | nil =>
    intro conv qspec act cv qs _ h k b q _ _
    simp only [limitPass, Except.ok.injEq, Prod.mk.injEq] at h
    obtain ⟨rfl, rfl, rfl⟩ := h
    exact ⟨fun hq => hq, fun hk => absurd hk (List.not_mem_nil _)⟩
  | cons k0 ks ih =>
    intro conv qspec act cv qs hlen
    simp only [limitPass]
    cases hb : buses.get? k0 with
    | none =>
      intro h
      cases h
    | some b0 =>
      dsimp only
      cases hd : limitCheck b0 (Q.getD k0 0) with
      | convert qlim =>
        dsimp only
        by_cases hpv : b0.type = BusType.PV
        · rw [if_pos hpv]
          intro h k b q hgb hgd
          have hlen' : buses.length ≤ (qspec.set k0 qlim).length := by
            rwa [List.length_set]
          have ihk := ih (conv ++ [k0]) (qspec.set k0 qlim) act cv qs hlen' h k b q hgb hgd
          by_cases hkk : k = k0
          · subst hkk
            rw [hb] at hgb
            injection hgb with hbe
            subst hbe
            rw [hd] at hgd
            injection hgd with hqe
            have hklt : k < qspec.length := by
              rcases List.get?_eq_some.mp hb with ⟨hl, -⟩
              omega
            have hset : (qspec.set k qlim).get? k = some q := by
              rw [← hqe]
              exact List.get?_set_eq_of_lt qlim hklt
            exact ⟨fun _ => ihk.1 hset, fun _ => ihk.1 hset⟩
          · have hset : (qspec.set k0 qlim).get? k = qspec.get? k :=
              List.get?_set_ne qlim qspec (Ne.symm hkk)
            refine ⟨fun hq => ihk.1 (by rw [hset]; exact hq), ?_⟩
            intro hk
            rcases List.mem_cons.mp hk with h' | h'
            · exact absurd h' hkk
            · exact ihk.2 h'
        · rw [if_neg hpv]
          intro h
          cases h
      | keep =>
        dsimp only
        cases hrec : limitPass buses Q ks conv qspec with
        | error e =>
          intro h
          cases h
        | ok t =>
          obtain ⟨act', cv', qs'⟩ := t
          intro h k b q hgb hgd
          simp only [Except.ok.injEq, Prod.mk.injEq] at h
          obtain ⟨rfl, rfl, rfl⟩ := h
          have ihk := ih conv qspec act' cv' qs' hlen hrec k b q hgb hgd
          refine ⟨ihk.1, ?_⟩
          intro hk
          rcases List.mem_cons.mp hk with rfl | h'
          · rw [hb] at hgb
            injection hgb with hbe
            subst hbe
            rw [hd] at hgd
            cases hgd
          · exact ihk.2 h'

/-- A lower-limit violation makes the cascade pin `Qmin`. -/
theorem limitCheck_lo (b : Bus) (qk q : ℝ) (h : b.Qmin = some q) (hlt : qk < q) :
    limitCheck b qk = LimitDecision.convert q := by
  unfold limitCheck
  rw [h]
  dsimp only
  rw [if_pos hlt]

/-- With no lower-limit violation, an upper-limit violation pins `Qmax`. -/
theorem limitCheck_hi (b : Bus) (qk q : ℝ) (hlo : ¬violLo b qk)
    (h : b.Qmax = some q) (hlt : q < qk) :
    limitCheck b qk = LimitDecision.convert q := by
  unfold limitCheck
  cases hmin : b.Qmin with
  | none =>
    dsimp only
    rw [h]
    dsimp only
    rw [if_pos hlt]
  | some qmin =>
    dsimp only
    have hnlt : ¬qk < qmin := fun hlt2 => hlo ⟨qmin, hmin, hlt2⟩
    rw [if_neg hnlt, h]
    dsimp only
    rw [if_pos hlt]

/-- Inversion of a completed (non-converged, non-raising) loop iteration:
the next state keeps the same network, and its `Q_spec`, `PV_active` and
`PV_conv` are exactly the outputs of the limit-enforcement pass run on the
computed `Q` of the current state. -/
theorem iterStep_inr_inv (ctx : SolveCtx) (it : ℕ) (s s' : LoopState)
    (h : iterStep ctx it s = .ok (.inr s')) :
    ∃ act conv qspec,
      limitPass s.net.buses (computePQ ctx s.Vm s.Va).2 s.PV_active s.PV_conv s.Q_spec
        = .ok (act, conv, qspec) ∧
      s'.net = s.net ∧ s'.Q_spec = qspec ∧ s'.PV_active = act ∧ s'.PV_conv = conv ∧
      s'.lastP = some (computePQ ctx s.Vm s.Va).1 ∧
      s'.lastQ = some (computePQ ctx s.Vm s.Va).2 := by
  revert h
  simp only [iterStep]
  cases hlim : limitPass s.net.buses (computePQ ctx s.Vm s.Va).2 s.PV_active s.PV_conv s.Q_spec with
  | error e =>
    intro h
    cases h
  | ok t =>
    obtain ⟨act, conv, qspec⟩ := t
    dsimp only
    cases hmis : mismatchVec ctx.P_spec (computePQ ctx s.Vm s.Va).1 qspec
        (computePQ ctx s.Vm s.Va).2
        ((List.range ctx.n).filter (fun k => k ≠ ctx.slack))
        (sortedUnion ctx.pq conv) with
    | error e =>
      intro h
      cases h
    | ok m =>
      dsimp only
      cases hmax : maxAbs m with
      | none =>
        intro h
        cases h
      | some mm =>
        dsimp only
        by_cases htol : mm < ctx.tol
        · rw [if_pos htol]
          intro h
          simp at h
        · rw [if_neg htol]
          cases hjac : jacobian ctx.G ctx.B s.Vm s.Va
              (computePQ ctx s.Vm s.Va).1 (computePQ ctx s.Vm s.Va).2
              ((List.range ctx.n).filter (fun k => k ≠ ctx.slack))
              (sortedUnion ctx.pq conv) with
          | error e =>
            intro h
            cases h
          | ok J =>
            dsimp only
            cases hsol : linsolve J m with
            | none =>
              intro h
              cases h
            | some dx =>
              dsimp only
              cases hrei : reimpose s.net.buses act (addAt s.Vm (sortedUnion ctx.pq conv)
                  (dx.drop ((List.range ctx.n).filter (fun k => k ≠ ctx.slack)).length)) with
              | error e =>
                intro h
                cases h
              | ok vm2 =>
                dsimp only
                intro h
                simp only [Except.ok.injEq, Sum.inr.injEq] at h
                subst h
                exact ⟨act, conv, qspec, rfl, rfl, rfl, rfl, rfl, rfl, rfl⟩

/-- Invariant of every state the loop can reach from `initState net`:
it carries the same network object, a full-length `Q_spec`, and PV sets
that are disjoint and contained in the network's PV index list. -/
theorem reach_inv (ctx : SolveCtx) (net : Network) :
    ∀ it s, stateAt ctx (initState net) it = .ok (.inr s) →
      s.net = net ∧ net.buses.length ≤ s.Q_spec.length ∧
      (∀ k, k ∈ s.PV_active → k ∈ net.pv_indices) ∧
      (∀ k, k ∈ s.PV_conv → k ∈ net.pv_indices) ∧
      (∀ k, k ∈ s.PV_active → k ∉ s.PV_conv) := by
  intro it
  induction it with
  | zero =>
    intro s h
    simp only [stateAt, Except.ok.injEq, Sum.inr.injEq] at h
    subst h
    refine ⟨rfl, by simp [initState], ?_, ?_, ?_⟩
    · intro k hk
      simp only [initState] at hk
      exact List.mem_dedup.mp hk
    · intro k hk
      simp only [initState] at hk
      cases hk
    · intro k _ hk2
      simp only [initState] at hk2
      cases hk2
  | succ it ih =>
    intro s' h
    simp only [stateAt] at h
    cases hp : stateAt ctx (initState net) it with
    | error e =>
      rw [hp] at h
      cases h
    | ok v =>
      cases v with
      | inl r =>
        rw [hp] at h
        simp at h
      | inr s =>
        rw [hp] at h
        obtain ⟨hnet, hlen, hact, hconv, hdisj⟩ := ih s hp
        obtain ⟨act, conv, qspec, hlim, h1, h2, h3, h4, -, -⟩ := iterStep_inr_inv ctx it s s' h
        obtain ⟨f1, f2, f3, f4, f5, f6⟩ := limitPass_facts _ _ _ _ _ _ _ _ hlim
        refine ⟨h1.trans hnet, ?_, ?_, ?_, ?_⟩
        · rw [h2, f6]
          exact hlen
        · intro k hk
          rw [h3] at hk
          exact hact k (f1 k hk)
        · intro k hk
          rw [h4] at hk
          rcases f3 k hk with hc | hp2
          · exact hconv k hc
          · exact hact k hp2
        · intro k hk hk2
          rw [h3] at hk
          rw [h4] at hk2
          have hkp := f1 k hk
          obtain ⟨b, hgb, hgk⟩ := (f4 k hkp).mp hk
          rcases (f5 k hkp).mp hk2 with hc | ⟨b', q', hgb', hgd'⟩
          · exact hdisj k hkp hc
          · rw [hgb] at hgb'
            injection hgb' with hbe
            subst hbe
            rw [hgk] at hgd'
            cases hgd'

/-- C2: within any run of `solve`, the PV bookkeeping is one-way.  Part one:
every reachable state has `PV_active` and `PV_converted` disjoint and both
contained in the initial PV index set.  Part two: across one iteration the
active set only shrinks and the converted set only grows, a converted bus
never returns to the active set, and an active bus `k` with bus record `b`
is converted exactly when `b` defines `Qmin` with computed `Q[k] < Qmin` or
defines `Qmax` with computed `Q[k] > Qmax` — at which moment `Q_spec[k]` is
pinned to the violated limit (to `Qmin` when the lower limit fires, else to
`Qmax`). -/
theorem pv_limit_conversion_one_way
    (cfg : LoadFlow) (net : Network) (Y : ℕ → ℕ → ℂ) (sl : ℕ)
    (hY : build_ybus net = .ok Y) (hsl : net.slack_index = some sl) :
    (∀ it s, stateAt (mkCtx cfg net Y sl) (initState net) it = .ok (.inr s) →
      (∀ k, k ∈ s.PV_active → k ∈ net.pv_indices) ∧
      (∀ k, k ∈ s.PV_conv → k ∈ net.pv_indices) ∧
      (∀ k, k ∈ s.PV_active → k ∉ s.PV_conv)) ∧
    (∀ it s s', stateAt (mkCtx cfg net Y sl) (initState net) it = .ok (.inr s) →
      iterStep (mkCtx cfg net Y sl) it s = .ok (.inr s') →
      (∀ k, k ∈ s'.PV_active → k ∈ s.PV_active) ∧
      (∀ k, k ∈ s.PV_conv → k ∈ s'.PV_conv) ∧
      (∀ k, k ∈ s.PV_conv → k ∉ s'.PV_active) ∧
      (∀ k, k ∈ s'.PV_active → k ∉ s'.PV_conv) ∧
      (∀ k b, k ∈ s.PV_active → s.net.buses.get? k = some b →
        ((k ∈ s'.PV_conv ↔
          violLo b ((computePQ (mkCtx cfg net Y sl) s.Vm s.Va).2.getD k 0) ∨
          violHi b ((computePQ (mkCtx cfg net Y sl) s.Vm s.Va).2.getD k 0)) ∧
        (∀ q, b.Qmin = some q →
          (computePQ (mkCtx cfg net Y sl) s.Vm s.Va).2.getD k 0 < q →
          s'.Q_spec.get? k = some q) ∧
        (∀ q, ¬violLo b ((computePQ (mkCtx cfg net Y sl) s.Vm s.Va).2.getD k 0) →
          b.Qmax = some q →
          q < (computePQ (mkCtx cfg net Y sl) s.Vm s.Va).2.getD k 0 →
          s'.Q_spec.get? k = some q)))) := by
  constructor
  · intro it s h
    obtain ⟨-, -, hA, hC, hD⟩ := reach_inv (mkCtx cfg net Y sl) net it s h
    exact ⟨hA, hC, hD⟩
  · intro it s s' hreach hstep
    obtain ⟨hnet, hlen, hact, hconv, hdisj⟩ := reach_inv (mkCtx cfg net Y sl) net it s hreach
    obtain ⟨act, conv, qspec, hlim, h1, h2, h3, h4, -, -⟩ :=
      iterStep_inr_inv (mkCtx cfg net Y sl) it s s' hstep
    obtain ⟨f1, f2, f3, f4, f5, f6⟩ := limitPass_facts _ _ _ _ _ _ _ _ hlim
    have hnext : stateAt (mkCtx cfg net Y sl) (initState net) (it + 1) = .ok (.inr s') := by
      simp only [stateAt, hreach]
      exact hstep
    obtain ⟨-, -, -, -, hdisj'⟩ := reach_inv (mkCtx cfg net Y sl) net (it + 1) s' hnext
    refine ⟨?_, ?_, ?_, hdisj', ?_⟩
    · intro k hk
      rw [h3] at hk
      exact f1 k hk
    · intro k hk
      rw [h4]
      exact f2 k hk
    · intro k hk hk2
      rw [h3] at hk2
      exact hdisj k (f1 k hk2) hk
    · intro k b hk hgb
      have hnc : k ∉ s.PV_conv := hdisj k hk
      constructor
      · rw [h4]
        rw [f5 k hk]
        constructor
        · rintro (hc | ⟨b', q', hgb', hgd'⟩)
          · exact absurd hc hnc
          · rw [hgb] at hgb'
            injection hgb' with hbe
            subst hbe
            exact (limitCheck_convert_exists_iff b _).mp ⟨q', hgd'⟩
        · intro hviol
          obtain ⟨q', hq'⟩ := (limitCheck_convert_exists_iff b _).mpr hviol
          exact Or.inr ⟨b, q', hgb, hq'⟩
      · have hlen' : s.net.buses.length ≤ s.Q_spec.length := by
          rw [hnet]
          exact hlen
        constructor
        · intro q hQmin hlt
          have hcv := limitCheck_lo b _ q hQmin hlt
          have hpin := (limitPass_pins _ _ _ _ _ _ _ _ hlen' hlim k b q hgb hcv).2 hk
          rw [h2]
          exact hpin
        · intro q hnlo hQmax hlt
          have hcv := limitCheck_hi b _ q hnlo hQmax hlt
          have hpin := (limitPass_pins _ _ _ _ _ _ _ _ hlen' hlim k b q hgb hcv).2 hk
          rw [h2]
          exact hpin

/-! ### C8 — the Network is never mutated -/

/-- One iteration step never replaces the network object in the state. -/
theorem iterStep_net (ctx : SolveCtx) (it : ℕ) (s s' : LoopState)
    (h : iterStep ctx it s = .ok (.inr s')) : s'.net = s.net := by
  obtain ⟨-, -, -, -, hnet, -⟩ := iterStep_inr_inv ctx it s s' h
  exact hnet

/-- The state-returning loop leaves the network component untouched. -/
theorem loopGoS_net (ctx : SolveCtx) :
    ∀ fuel it s, (loopGoS ctx fuel it s).1.net = s.net := by
  intro fuel
  induction fuel with
  | zero =>
    intro it s
    simp only [loopGoS]
    cases s.lastP <;> cases s.lastQ <;> rfl
  | succ fuel ih =>
    intro it s
    simp only [loopGoS]
    cases hstep : iterStep ctx it s with
    | error e => rfl
    | ok v =>
      cases v with
      | inl r => rfl
      | inr s' =>
        dsimp only
        rw [ih (it + 1) s', iterStep_net ctx it s s' hstep]

/-- The state-returning loop computes the same answer as the plain loop. -/
theorem loopGoS_run (ctx : SolveCtx) :
    ∀ fuel it s, (loopGoS ctx fuel it s).2 = loopGo ctx fuel it s := by
  intro fuel
  induction fuel with
  | zero =>
    intro it s
    simp only [loopGoS, loopGo]
    cases s.lastP <;> cases s.lastQ <;> rfl
  | succ fuel ih =>
    intro it s
    simp only [loopGoS, loopGo]
    cases hstep : iterStep ctx it s with
    | error e => rfl
    | ok v =>
      cases v with
      | inl r => rfl
      | inr s' =>
        dsimp only
        exact ih (it + 1) s'

/-- C8: `solve` never mutates the `Network`: threading the network through
the whole computation returns it unchanged, and the result is exactly the
one `solve` computes, so the same network can be solved repeatedly with
identical inputs each time. -/
theorem solve_preserves_network (cfg : LoadFlow) (net : Network) :
    (LoadFlow.solveS cfg net).1 = net ∧
    (LoadFlow.solveS cfg net).2 = LoadFlow.solve cfg net := by
  unfold LoadFlow.solveS LoadFlow.solve
  cases hY : build_ybus net with
  | error e => exact ⟨rfl, rfl⟩
  | ok Y =>
    dsimp only
    cases hsl : net.slack_index with
    | none => exact ⟨rfl, rfl⟩
    | some sl =>
      dsimp only
      constructor
      · rw [loopGoS_net]
        rfl
      · rw [loopGoS_run]

/-! ### Concrete evaluations -/

/-- On a branchless, shuntless network every admittance entry is zero. -/
theorem ybusEntry_netA (p q : ℕ) : ybusEntry netA p q = 0 := by
  simp [ybusEntry, netA]

/-- `build_ybus` succeeds on `netA` (no branches or shunts, so neither
scan can fail). -/
theorem build_ybus_netA : build_ybus netA = .ok (ybusEntry netA) := rfl

/-- Every admittance entry of `netOOR` is zero. -/
theorem ybusEntry_netOOR (p q : ℕ) : ybusEntry netOOR p q = 0 := by
  simp [ybusEntry, netOOR]

/-- `build_ybus` succeeds on `netOOR` (it has no branches or shunts; the
out-of-range `idx` lives on a bus and only trips the solver later). -/
theorem build_ybus_netOOR : build_ybus netOOR = .ok (ybusEntry netOOR) := rfl

/-- With an all-zero admittance matrix on a two-bus context every computed
injection is zero whatever the working voltages are. -/
theorem computePQ_zeroY (ctx : SolveCtx) (hY : ∀ k m, ctx.Y k m = 0) (hn : ctx.n = 2)
    (Vm Va : List ℝ) : computePQ ctx Vm Va = ([0, 0], [0, 0]) := by
  have hr : List.range 2 = [0, 1] := rfl
  simp only [computePQ, hn, hr]
  simp [hY]

/-! ### C10 — the unstated idx-equals-position precondition -/

/-- C10: the solver's working vectors are built in bus-list order but are
indexed by `idx` values.  (a) Under the precondition that every bus's `idx`
equals its list position, every PV index lookup `network.buses[k]` lands on
the intended PV bus.  (b) On `netPerm`, whose `idx` fields permute the
positions, the PV index list is `[1]` yet `buses[1]` is the slack bus — the
limit-enforcement pass would silently consult the wrong bus.  (c) On
`netOOR`, whose PQ bus carries `idx = 5 ≥ nbus = 2`, `solve` raises
`IndexError` instead of returning a result. -/
theorem solver_requires_idx_alignment :
    (∀ net : Network, (∀ p b, net.buses.get? p = some b → b.idx = p) →
      ∀ k, k ∈ net.pv_indices →
        ∃ b, net.buses.get? k = some b ∧ b.type = BusType.PV ∧ b.idx = k) ∧
    (netPerm.pv_indices = [1] ∧ (netPerm.buses.get? 1).map Bus.type = some BusType.SLACK) ∧
    LoadFlow.solve ⟨1, 5, false⟩ netOOR = .error .indexError := by
  refine ⟨?_, ⟨rfl, rfl⟩, ?_⟩
  · intro net halign k hk
    simp only [Network.pv_indices, List.mem_map, List.mem_filter,
      decide_eq_true_eq] at hk
    obtain ⟨b, ⟨hbm, hbt⟩, hbidx⟩ := hk
    obtain ⟨p, hp⟩ := List.mem_iff_get?.mp hbm
    have hpk : p = k := by
      rw [← hbidx]
      exact (halign p b hp).symm
    subst hpk
    exact ⟨b, hp, hbt, hbidx⟩
  · simp only [LoadFlow.solve, build_ybus_netOOR]
    rfl

/-- C10 witness: on the aligned network `netC` the theorem's precondition
holds and the PV lookup for index 1 returns the PV bus itself. -/
theorem solver_idx_alignment_witness :
    ∃ b, netC.buses.get? 1 = some b ∧ b.type = BusType.PV ∧ b.idx = 1 := by
  refine solver_requires_idx_alignment.1 netC ?_ 1 ?_
  · intro p b hp
    match p, hp with
    | 0, hp => cases hp; rfl
    | 1, hp => cases hp; rfl
  · exact List.mem_singleton.mpr rfl

/-! ### C1 witness -/

/-- C1 witness: on `netA` the initial state already satisfies the
tolerance (mismatch `[0, 0]`, `tol = 1`), and `solve` returns
`converged = true` with `iterations = 0`. -/
theorem solve_stops_witness :
    computePQ (mkCtx ⟨1, 5, false⟩ netA (ybusEntry netA) 0)
        (initState netA).Vm (initState netA).Va = ([0, 0], [0, 0]) ∧
    maxAbs [0, 0] = some 0 ∧ (0 : ℝ) < 1 ∧
    LoadFlow.solve ⟨1, 5, false⟩ netA = .ok
      { Vm := (initState netA).Vm, Va := (initState netA).Va,
        P := (computePQ (mkCtx ⟨1, 5, false⟩ netA (ybusEntry netA) 0)
          (initState netA).Vm (initState netA).Va).1,
        Q := (computePQ (mkCtx ⟨1, 5, false⟩ netA (ybusEntry netA) 0)
          (initState netA).Vm (initState netA).Va).2,
        iterations := 0, converged := true } := by
  have hPQ : computePQ (mkCtx ⟨1, 5, false⟩ netA (ybusEntry netA) 0)
      (initState netA).Vm (initState netA).Va = ([0, 0], [0, 0]) :=
    computePQ_zeroY _ (fun k m => ybusEntry_netA k m) rfl _ _
  have hmis : mismatchVec (mkCtx ⟨1, 5, false⟩ netA (ybusEntry netA) 0).P_spec
      (computePQ (mkCtx ⟨1, 5, false⟩ netA (ybusEntry netA) 0)
        (initState netA).Vm (initState netA).Va).1
      (initState netA).Q_spec
      (computePQ (mkCtx ⟨1, 5, false⟩ netA (ybusEntry netA) 0)
        (initState netA).Vm (initState netA).Va).2
      ((List.range (mkCtx ⟨1, 5, false⟩ netA (ybusEntry netA) 0).n).filter
        (fun k => k ≠ (mkCtx ⟨1, 5, false⟩ netA (ybusEntry netA) 0).slack))
      (sortedUnion (mkCtx ⟨1, 5, false⟩ netA (ybusEntry netA) 0).pq []) = .ok [0, 0] := by
    rw [hPQ]
    show mismatchVec [0, 0] [0, 0] [0, 0] [0, 0] [1] [1] = .ok [0, 0]
    norm_num [mismatchVec, selectList]
  refine ⟨hPQ, by norm_num [maxAbs], by norm_num, ?_⟩
  exact solve_stops_at_first_convergent_iteration ⟨1, 5, false⟩ netA (ybusEntry netA) 0 0
    (initState netA) [] [] (initState netA).Q_spec [0, 0] 0
    build_ybus_netA rfl rfl (by norm_num) rfl hmis (by norm_num [maxAbs]) (by norm_num)

/-! ### Evaluating one Newton iteration on `netB` and `netC` -/

/-- Admittance entries of the single branch `brA`: diagonal `-j`. -/
theorem branchContrib_brA_00 : branchContrib brA 0 0 = -Complex.I := by
  simp [branchContrib, brA, deg2rad, Complex.inv_I]

/-- Diagonal entry at bus 1. -/
theorem branchContrib_brA_11 : branchContrib brA 1 1 = -Complex.I := by
  simp [branchContrib, brA, deg2rad, Complex.inv_I]

/-- Off-diagonal entry `(0, 1)`: `j`. -/
theorem branchContrib_brA_01 : branchContrib brA 0 1 = Complex.I := by
  simp [branchContrib, brA, deg2rad, Complex.inv_I]

/-- Off-diagonal entry `(1, 0)`: `j`. -/
theorem branchContrib_brA_10 : branchContrib brA 1 0 = Complex.I := by
  simp [branchContrib, brA, deg2rad, Complex.inv_I]

/-- On `netB` the admittance matrix is exactly the single `brA`
contribution. -/
theorem ybusEntry_netB_eval (p q : ℕ) : ybusEntry netB p q = branchContrib brA p q := by
  simp [ybusEntry, netB]

/-- Likewise on `netC`. -/
theorem ybusEntry_netC_eval (p q : ℕ) : ybusEntry netC p q = branchContrib brA p q := by
  simp [ybusEntry, netC]

/-- With the `brA` admittances and flat-start voltages, the computed
injections all vanish: `I = Y·V = 0` because the two voltages are equal. -/
theorem computePQ_YbrA (ctx : SolveCtx) (hn : ctx.n = 2)
    (hY : ∀ k m, ctx.Y k m = branchContrib brA k m) :
    computePQ ctx [1, 1] [deg2rad 0, deg2rad 0] = ([0, 0], [0, 0]) := by
  have hr : List.range 2 = [0, 1] := rfl
  have hd : deg2rad 0 = 0 := by simp [deg2rad]
  simp only [computePQ, hn, hr, hd]
  simp [hY, branchContrib_brA_00, branchContrib_brA_01,
    branchContrib_brA_10, branchContrib_brA_11]

/-- The Jacobian of the one-angle-one-magnitude system at a flat state with
`G[1,1] = 0` and `B[1,1] = -1` is the identity. -/
theorem jacobian_diag1 (G B : ℕ → ℕ → ℝ) (Va : List ℝ)
    (hG : G 1 1 = 0) (hB : B 1 1 = -1) :
    jacobian G B [1, 1] Va [0, 0] [0, 0] [1] [1] = .ok [[1, 0], [0, 1]] := by
  simp only [jacobian]
  rw [if_neg (by decide : ¬∃ k ∈ ([1] : List ℕ), k ∉ ([1] : List ℕ))]
  simp [hG, hB]

/-- Solving against the identity matrix returns the right-hand side. -/
theorem linsolve_id2 (a b : ℝ) : linsolve [[1, 0], [0, 1]] [a, b] = some [a, b] := by
  have hM : (Matrix.of fun i j : Fin ([[(1 : ℝ), 0], [0, 1]] : List (List ℝ)).length =>
      (([[(1 : ℝ), 0], [0, 1]] : List (List ℝ)).get i).getD j 0) = 1 := by
    ext i j
    fin_cases i <;> fin_cases j <;> simp [Matrix.one_apply]
  have hfr : List.finRange ([[(1 : ℝ), 0], [0, 1]] : List (List ℝ)).length
      = [⟨0, by norm_num⟩, ⟨1, by norm_num⟩] := rfl
  simp only [linsolve, hM, hfr]
  rw [if_neg (by simp : ¬(1 : Matrix (Fin ([[(1 : ℝ), 0], [0, 1]] : List (List ℝ)).length) (Fin ([[(1 : ℝ), 0], [0, 1]] : List (List ℝ)).length) ℝ).det = 0)]
  simp [Matrix.cramer_one, Matrix.det_one]

/-- The PV bus of `netC` violates its upper limit at computed `Q = 0`. -/
theorem limitCheck_busPVq : limitCheck busPVq 0 = LimitDecision.convert (-1) := by
  have hlo : ¬violLo busPVq 0 := by
    rintro ⟨q, hq, -⟩
    cases hq
  exact limitCheck_hi busPVq 0 (-1) hlo rfl (by norm_num)

/-- The limit-enforcement pass on `netC` converts bus 1 and pins its
`Q_spec` to `-1`. -/
theorem limitPass_netC :
    limitPass netC.buses [0, 0] [1] [] [0, 0] = .ok ([], [1], [0, -1]) := by
  simp only [limitPass]
  rw [show netC.buses.get? 1 = some busPVq from rfl]
  dsimp only
  rw [show (([0, 0] : List ℝ).getD 1 0) = 0 from rfl, limitCheck_busPVq]
  dsimp only
  rw [if_pos (show busPVq.type = BusType.PV from rfl)]
  rfl

/-- The loop state after the first Newton iteration on `netB`. -/
def sB1 : LoopState := ⟨netB, [1, 1], [0, 1], [0, 0], [], [], some [0, 0], some [0, 0]⟩

/-- The loop state after the first Newton iteration on `netC`. -/
def sC1 : LoopState := ⟨netC, [1, 0], [0, 0], [0, -1], [], [1], some [0, 0], some [0, 0]⟩

/-- One full Newton iteration on `netB` (mismatch `[1, 0]`, identity
Jacobian, step `[1, 0]`), for any tolerance at most 1: the iteration does
not converge and produces `sB1`. -/
theorem iterStep_netB (tol : ℝ) (mi : ℕ) (htol : ¬((1 : ℝ) < tol)) :
    iterStep (mkCtx ⟨tol, mi, false⟩ netB (ybusEntry netB) 0) 0 (initState netB)
      = .ok (.inr sB1) := by
  have hPQ : computePQ (mkCtx ⟨tol, mi, false⟩ netB (ybusEntry netB) 0)
      (initState netB).Vm (initState netB).Va = ([0, 0], [0, 0]) :=
    computePQ_YbrA _ rfl (fun k m => ybusEntry_netB_eval k m)
  have hG : (mkCtx ⟨tol, mi, false⟩ netB (ybusEntry netB) 0).G 1 1 = 0 := by
    show (ybusEntry netB 1 1).re = 0
    rw [ybusEntry_netB_eval, branchContrib_brA_11]
    simp
  have hB : (mkCtx ⟨tol, mi, false⟩ netB (ybusEntry netB) 0).B 1 1 = -1 := by
    show (ybusEntry netB 1 1).im = -1
    rw [ybusEntry_netB_eval, branchContrib_brA_11]
    simp
  simp only [iterStep, hPQ]
  rw [show (initState netB).Vm = [1, 1] from rfl,
    show (initState netB).Va = [deg2rad 0, deg2rad 0] from rfl]
  rw [show limitPass (initState netB).net.buses ((([0, 0], [0, 0]) : List ℝ × List ℝ).2)
      (initState netB).PV_active (initState netB).PV_conv (initState netB).Q_spec
      = .ok ([], [], [0, 0]) from rfl]
  dsimp only
  rw [show ((List.range (mkCtx ⟨tol, mi, false⟩ netB (ybusEntry netB) 0).n).filter
      (fun k => k ≠ (mkCtx ⟨tol, mi, false⟩ netB (ybusEntry netB) 0).slack)) = [1] from rfl]
  rw [show sortedUnion (mkCtx ⟨tol, mi, false⟩ netB (ybusEntry netB) 0).pq [] = [1] from rfl]
  rw [show mismatchVec (mkCtx ⟨tol, mi, false⟩ netB (ybusEntry netB) 0).P_spec
      ((([0, 0], [0, 0]) : List ℝ × List ℝ).1) [0, 0]
      ((([0, 0], [0, 0]) : List ℝ × List ℝ).2) [1] [1] = .ok [1 - 0, 0 - 0] from rfl]
  rw [show ([1 - 0, 0 - 0] : List ℝ) = [1, 0] by norm_num]
  dsimp only
  rw [show maxAbs [(1 : ℝ), 0] = some 1 by norm_num [maxAbs]]
  dsimp only
  have hif : ¬((1 : ℝ) < (mkCtx ⟨tol, mi, false⟩ netB (ybusEntry netB) 0).tol) := htol
  rw [if_neg hif]
  rw [jacobian_diag1 _ _ _ hG hB]
  dsimp only
  rw [linsolve_id2 1 0]
  dsimp only
  rw [show addAt [deg2rad 0, deg2rad 0] [1] (([(1 : ℝ), 0]).take ([1] : List ℕ).length)
      = [deg2rad 0, deg2rad 0 + 1] from rfl]
  rw [show addAt [(1 : ℝ), 1] [1] (([(1 : ℝ), 0]).drop ([1] : List ℕ).length)
      = [1, 1 + 0] from rfl]
  rw [show ([deg2rad 0, deg2rad 0 + 1] : List ℝ) = [0, 1] by norm_num [deg2rad]]
  rw [show ([(1 : ℝ), 1 + 0] : List ℝ) = [1, 1] by norm_num]
  rw [show reimpose (initState netB).net.buses [] ([1, 1] : List ℝ)
      = .ok [1, 1] from rfl]
  rfl

/-- One full Newton iteration on `netC`: the PV bus is converted to PQ with
`Q_spec` pinned to `-1`, the mismatch `[0, -1]` exceeds `tol = 1/2`, and the
Newton step drives `Vm[1]` to 0, producing `sC1`. -/
theorem iterStep_netC :
    iterStep (mkCtx ⟨1 / 2, 3, false⟩ netC (ybusEntry netC) 0) 0 (initState netC)
      = .ok (.inr sC1) := by
  have hPQ : computePQ (mkCtx ⟨1 / 2, 3, false⟩ netC (ybusEntry netC) 0)
      (initState netC).Vm (initState netC).Va = ([0, 0], [0, 0]) :=
    computePQ_YbrA _ rfl (fun k m => ybusEntry_netC_eval k m)
  have hG : (mkCtx ⟨1 / 2, 3, false⟩ netC (ybusEntry netC) 0).G 1 1 = 0 := by
    show (ybusEntry netC 1 1).re = 0
    rw [ybusEntry_netC_eval, branchContrib_brA_11]
    simp
  have hB : (mkCtx ⟨1 / 2, 3, false⟩ netC (ybusEntry netC) 0).B 1 1 = -1 := by
    show (ybusEntry netC 1 1).im = -1
    rw [ybusEntry_netC_eval, branchContrib_brA_11]
    simp
  have hlim : limitPass (initState netC).net.buses ((([0, 0], [0, 0]) : List ℝ × List ℝ).2)
      (initState netC).PV_active (initState netC).PV_conv (initState netC).Q_spec
      = .ok ([], [1], [0, -1]) := limitPass_netC
  simp only [iterStep, hPQ]
  rw [show (initState netC).Vm = [1, 1] from rfl,
    show (initState netC).Va = [deg2rad 0, deg2rad 0] from rfl]
  rw [hlim]
  dsimp only
  rw [show ((List.range (mkCtx ⟨1 / 2, 3, false⟩ netC (ybusEntry netC) 0).n).filter
      (fun k => k ≠ (mkCtx ⟨1 / 2, 3, false⟩ netC (ybusEntry netC) 0).slack)) = [1] from rfl]
  rw [show sortedUnion (mkCtx ⟨1 / 2, 3, false⟩ netC (ybusEntry netC) 0).pq [1] = [1] from rfl]
  rw [show mismatchVec (mkCtx ⟨1 / 2, 3, false⟩ netC (ybusEntry netC) 0).P_spec
      ((([0, 0], [0, 0]) : List ℝ × List ℝ).1) [0, -1]
      ((([0, 0], [0, 0]) : List ℝ × List ℝ).2) [1] [1] = .ok [0 - 0, -1 - 0] from rfl]
  rw [show ([0 - 0, -1 - 0] : List ℝ) = [0, -1] by norm_num]
  dsimp only
  rw [show maxAbs [(0 : ℝ), -1] = some 1 by norm_num [maxAbs]]
  dsimp only
  have hif : ¬((1 : ℝ) < (mkCtx ⟨1 / 2, 3, false⟩ netC (ybusEntry netC) 0).tol) := by
    show ¬((1 : ℝ) < 1 / 2)
    norm_num
  rw [if_neg hif]
  rw [jacobian_diag1 _ _ _ hG hB]
  dsimp only
  rw [linsolve_id2 0 (-1)]
  dsimp only
  rw [show addAt [deg2rad 0, deg2rad 0] [1] (([(0 : ℝ), -1]).take ([1] : List ℕ).length)
      = [deg2rad 0, deg2rad 0 + 0] from rfl]
  rw [show addAt [(1 : ℝ), 1] [1] (([(0 : ℝ), -1]).drop ([1] : List ℕ).length)
      = [1, 1 + -1] from rfl]
  rw [show ([deg2rad 0, deg2rad 0 + 0] : List ℝ) = [0, 0] by norm_num [deg2rad]]
  rw [show ([(1 : ℝ), 1 + -1] : List ℝ) = [1, 0] by norm_num]
  rw [show reimpose (initState netC).net.buses [] ([1, 0] : List ℝ)
      = .ok [1, 0] from rfl]
  rfl

/-! ### C3 witness -/

/-- C3 witness: on `netB` with a one-iteration budget and `tol = 1/2`, the
mismatch stays at 1, the single iteration completes, and `solve` returns
`converged = false` with `iterations = 1` and the last computed vectors. -/
theorem solve_budget_witness :
    stateAt (mkCtx ⟨1 / 2, 1, false⟩ netB (ybusEntry netB) 0) (initState netB) 1
      = .ok (.inr sB1) ∧
    sB1.lastP = some [0, 0] ∧ sB1.lastQ = some [0, 0] ∧
    LoadFlow.solve ⟨1 / 2, 1, false⟩ netB
      = .ok ⟨[1, 1], [0, 1], [0, 0], [0, 0], 1, false⟩ := by
  have hs : stateAt (mkCtx ⟨1 / 2, 1, false⟩ netB (ybusEntry netB) 0) (initState netB) 1
      = .ok (.inr sB1) := iterStep_netB (1 / 2) 1 (by norm_num)
  refine ⟨hs, rfl, rfl, ?_⟩
  exact solve_budget_exhausted_returns ⟨1 / 2, 1, false⟩ netB (ybusEntry netB) 0 sB1
    [0, 0] [0, 0] build_ybus_netB rfl hs rfl rfl

/-! ### C5 — no configuration validation -/

/-- The maximum of absolute values is never negative. -/
theorem maxAbs_nonneg : ∀ (l : List ℝ) (m : ℝ), maxAbs l = some m → 0 ≤ m := by
  intro l
  induction l with
  | nil =>
    intro m h
    cases h
  | cons xv xs ih =>
    intro m
    simp only [maxAbs]
    cases hrec : maxAbs xs with
    | none =>
      intro h
      injection h with he
      subst he
      exact abs_nonneg xv
    | some m0 =>
      intro h
      injection h with he
      subst he
      exact le_trans (ih m0 hrec) (le_max_right _ _)

/-- A converged early return can only arise from a mismatch maximum that is
strictly below the tolerance. -/
theorem iterStep_inl_inv (ctx : SolveCtx) (it : ℕ) (s : LoopState) (r : LoadFlowResult)
    (h : iterStep ctx it s = .ok (.inl r)) :
    ∃ m mm, maxAbs m = some mm ∧ mm < ctx.tol := by
  revert h
  simp only [iterStep]
  cases hlim : limitPass s.net.buses (computePQ ctx s.Vm s.Va).2 s.PV_active s.PV_conv s.Q_spec with
  | error e =>
    intro h
    cases h
  | ok t =>
    obtain ⟨act, conv, qspec⟩ := t
    dsimp only
    cases hmis : mismatchVec ctx.P_spec (computePQ ctx s.Vm s.Va).1 qspec
        (computePQ ctx s.Vm s.Va).2
        ((List.range ctx.n).filter (fun k => k ≠ ctx.slack))
        (sortedUnion ctx.pq conv) with
    | error e =>
      intro h
      cases h
    | ok m =>
      dsimp only
      cases hmax : maxAbs m with
      | none =>
        intro h
        cases h
      | some mm =>
        dsimp only
        by_cases htol : mm < ctx.tol
        · intro _
          exact ⟨m, mm, hmax, htol⟩
        · rw [if_neg htol]
          cases hjac : jacobian ctx.G ctx.B s.Vm s.Va
              (computePQ ctx s.Vm s.Va).1 (computePQ ctx s.Vm s.Va).2
              ((List.range ctx.n).filter (fun k => k ≠ ctx.slack))
              (sortedUnion ctx.pq conv) with
          | error e =>
            intro h
            cases h
          | ok J =>
            dsimp only
            cases hsol : linsolve J m with
            | none =>
              intro h
              cases h
            | some dx =>
              dsimp only
              cases hrei : reimpose s.net.buses act (addAt s.Vm (sortedUnion ctx.pq conv)
                  (dx.drop ((List.range ctx.n).filter (fun k => k ≠ ctx.slack)).length)) with
              | error e =>
                intro h
                cases h
              | ok vm2 =>
                dsimp only
                intro h
                simp at h

/-- C5 counterexample: a configuration with negative tolerance is not
rejected; `solve` runs the Newton iteration and returns a normal
non-converged result, refuting the claim that an error is raised before any
iteration runs. -/
theorem solve_negative_tol_runs_normally :
    ((-1 : ℝ) ≤ 0) ∧
    LoadFlow.solve ⟨-1, 1, false⟩ netB
      = .ok ⟨[1, 1], [0, 1], [0, 0], [0, 0], 1, false⟩ := by
  refine ⟨by norm_num, ?_⟩
  have hstep := iterStep_netB (-1) 1 (by norm_num)
  simp only [LoadFlow.solve, build_ybus_netB]
  show loopGo (mkCtx ⟨-1, 1, false⟩ netB (ybusEntry netB) 0) 1 0 (initState netB)
    = .ok ⟨[1, 1], [0, 1], [0, 0], [0, 0], 1, false⟩
  simp only [loopGo, hstep]
  rfl

/-- C5 (amended): `LoadFlow.__init__` performs no validation, and `solve`
never rejects a configuration up front.  A zero (non-positive) iteration
budget is accepted and fails only *after* the loop, at result construction,
with an unbound-name error; a non-positive tolerance is accepted and the
solve proceeds — it merely can never report convergence, because the
mismatch maximum is non-negative. -/
theorem solver_config_not_validated :
    (∀ (cfg : LoadFlow) (net : Network) (Y : ℕ → ℕ → ℂ) (sl : ℕ),
      cfg.max_iter = 0 → build_ybus net = .ok Y → net.slack_index = some sl →
      LoadFlow.solve cfg net = .error .nameError) ∧
    (∀ (cfg : LoadFlow) (net : Network) (Y : ℕ → ℕ → ℂ) (sl : ℕ) (it : ℕ)
        (s : LoopState) (r : LoadFlowResult), cfg.tol ≤ 0 →
      iterStep (mkCtx cfg net Y sl) it s ≠ .ok (.inl r)) := by
  constructor
  · intro cfg net Y sl hmi hY hsl
    simp only [LoadFlow.solve, hY, hsl, hmi]
    rfl
  · intro cfg net Y sl it s r htol h
    obtain ⟨m, mm, hmax, hlt⟩ := iterStep_inl_inv (mkCtx cfg net Y sl) it s r h
    have h0 : (0 : ℝ) ≤ mm := maxAbs_nonneg m mm hmax
    have htol' : (mkCtx cfg net Y sl).tol ≤ 0 := htol
    linarith

/-- C5 witness for the amended statement: with `max_iter = 0` on `netA`,
`solve` fails with the unbound-`P` error after the (empty) loop; and the
second part instantiated at the negative-tolerance context. -/
theorem solver_config_witness :
    (⟨1, 0, false⟩ : LoadFlow).max_iter = 0 ∧
    LoadFlow.solve ⟨1, 0, false⟩ netA = .error .nameError ∧
    ((-1 : ℝ) ≤ 0 ∧
      iterStep (mkCtx ⟨-1, 1, false⟩ netB (ybusEntry netB) 0) 0 (initState netB)
        ≠ .ok (.inl ⟨[], [], [], [], 0, true⟩)) :=
  ⟨rfl,
    solver_config_not_validated.1 ⟨1, 0, false⟩ netA (ybusEntry netA) 0 rfl
      build_ybus_netA rfl,
    by norm_num,
    solver_config_not_validated.2 ⟨-1, 1, false⟩ netB (ybusEntry netB) 0 0
      (initState netB) ⟨[], [], [], [], 0, true⟩ (by norm_num)⟩

/-! ### C2 witness -/

/-- C2 witness: on `netC`, bus 1 is PV-active initially; its computed
`Q = 0` exceeds `Qmax = -1`, and after one iteration it is converted
(member of `PV_converted`, absent from `PV_active`) with `Q_spec` pinned to
`-1`. -/
theorem pv_limit_witness :
    (1 ∈ sC1.PV_conv) ∧ (1 ∉ sC1.PV_active) ∧ sC1.Q_spec.get? 1 = some (-1) := by
  have happ := (pv_limit_conversion_one_way ⟨1 / 2, 3, false⟩ netC (ybusEntry netC) 0
    build_ybus_netC rfl).2 0 (initState netC) sC1 rfl iterStep_netC
  have hmem : (1 : ℕ) ∈ (initState netC).PV_active := List.mem_singleton.mpr rfl
  have hbus : (initState netC).net.buses.get? 1 = some busPVq := rfl
  have hPQe : computePQ (mkCtx ⟨1 / 2, 3, false⟩ netC (ybusEntry netC) 0)
      (initState netC).Vm (initState netC).Va = ([0, 0], [0, 0]) :=
    computePQ_YbrA _ rfl (fun k m => ybusEntry_netC_eval k m)
  have hqk : (computePQ (mkCtx ⟨1 / 2, 3, false⟩ netC (ybusEntry netC) 0)
      (initState netC).Vm (initState netC).Va).2.getD 1 0 = 0 := by
    rw [hPQe]
    rfl
  have hiff := happ.2.2.2.2 1 busPVq hmem hbus
  have hconv : (1 : ℕ) ∈ sC1.PV_conv := by
    refine hiff.1.mpr (Or.inr ?_)
    rw [hqk]
    exact ⟨-1, rfl, by norm_num⟩
  refine ⟨hconv, fun hact => happ.2.2.2.1 1 hact hconv, ?_⟩
  refine hiff.2.2 (-1) ?_ rfl ?_
  · rintro ⟨q, hq, -⟩
    cases hq
  · rw [hqk]
    norm_num

end Loadflow
